import Mathlib

/-!
# Huffman coding: a verification development of `HuffmanCoding.cc`

The program counts character frequencies of a text, builds a Huffman tree with a
`std::priority_queue`, derives a lookup table of codes by walking the tree, encodes the
text with the table and decodes a bit string by walking the tree.

Conventions of the embedding.

* `char` is the signed 8-bit type (`CChar`), as the leaf test `character > -1` and the
  sentinel `-1` of internal nodes presuppose. A `std::string` is a list of `CChar`.
* `unsigned` is 32 bits wide: every addition on a frequency is taken modulo `2 ^ 32`.
* `HuffmanTreeNode*` is the inductive type `HuffmanTreeNode`, whose constructor `null`
  is the null pointer; nodes are never mutated after construction, so a pointer is
  modelled by the tree it points to.
* `std::unordered_map<char, T>` is a finite map `CChar → Option T`.
* `std::priority_queue` is not part of the repository. It is a parameter
  (`PriorityQueue`) constrained by the contract of the C++ standard: `top` is an element
  of the queue that no other element precedes, which element among equal frequencies is
  left to the implementation.
* Dereferencing a null pointer is undefined behaviour: `Decode` returns `none` there.
-/

namespace HuffmanCoding

/-! ## Data model -/

/-- The C++ type `char`, signed and 8 bits wide. -/
abbrev CChar := { z : Int // -128 ≤ z ∧ z ≤ 127 }

/-- Conversion of an `int` to `char`: the value is wrapped into `[-128, 127]`. -/
def CChar.ofInt (z : Int) : CChar := ⟨(z + 128) % 256 - 128, by omega⟩

/-- A `std::string`. -/
abbrev CString := List CChar

/-- The character literal `'0'`. -/
def bit0 : CChar := CChar.ofInt 48

/-- The character literal `'1'`. -/
def bit1 : CChar := CChar.ofInt 49

/-- The number of values of the type `unsigned`. -/
def UNSIGNED_MOD : Nat := 2 ^ 32

/-- A value of type `HuffmanTreeNode*`: the null pointer, or a pointer to a node with its
four fields. -/
inductive HuffmanTreeNode where
  | null : HuffmanTreeNode
  | node (character : CChar) (frequency : Nat) (left right : HuffmanTreeNode) :
      HuffmanTreeNode
  deriving DecidableEq, Repr

/-- The field `frequency` (`0` stands in for the undefined read through a null pointer). -/
def HuffmanTreeNode.frequency : HuffmanTreeNode → Nat
  | .null => 0
  | .node _ f _ _ => f

/-- The expression `new HuffmanTreeNode(character, frequency)`: both children default to
the null pointer. -/
def newLeaf (character : CChar) (frequency : Nat) : HuffmanTreeNode :=
  .node character frequency .null .null

/-- The expression
`new HuffmanTreeNode(-1, left_node->frequency + right_node->frequency, left_node, right_node)`. -/
def newInternal (left_node right_node : HuffmanTreeNode) : HuffmanTreeNode :=
  .node (CChar.ofInt (-1)) ((left_node.frequency + right_node.frequency) % UNSIGNED_MOD)
    left_node right_node

/-- The type `std::unordered_map<char, unsigned>`. -/
abbrev FrequencyTable := CChar → Option Nat

/-- The type `std::unordered_map<char, std::string>`. -/
abbrev LookupTable := CChar → Option CString

/-! ## `CreateFrequencyTable` -/

/-- The function `CreateFrequencyTable`: one pass over the text, a first occurrence stores
`1`, a later one adds `1` in `unsigned` arithmetic. -/
def CreateFrequencyTable : CString → FrequencyTable → FrequencyTable
  | [], frequency_table => frequency_table
  | character :: rest, frequency_table =>
    match frequency_table character with
    | none => CreateFrequencyTable rest (Function.update frequency_table character (some 1))
    | some n =>
      CreateFrequencyTable rest
        (Function.update frequency_table character (some ((n + 1) % UNSIGNED_MOD)))

/-! ## `std::set<char>` -/

/-- Insertion into a `std::set<char>`, kept as a strictly increasing list. -/
def setInsert (c : CChar) : List CChar → List CChar
  | [] => [c]
  | d :: rest =>
    if c < d then c :: d :: rest
    else if c = d then d :: rest
    else d :: setInsert c rest

/-- The set `std::set<char> characters(text.begin(), text.end())`, in iteration order. -/
def characters (text : CString) : List CChar :=
  text.foldl (fun s c => setInsert c s) []

/-! ## `std::priority_queue` -/

/-- The contract of
`std::priority_queue<HuffmanTreeNode*, std::vector<HuffmanTreeNode*>, HuffmanTreeNode::Compare>`.
`elems` is the multiset of pointers the queue holds. With `Compare` returning
`node_one->frequency > node_two->frequency`, `top` is an element of least frequency.
Calling `top` or `pop` on an empty queue is undefined behaviour in C++; the contract says
nothing about `top` there. -/
structure PriorityQueue where
  Q : Type
  empty : Q
  push : Q → HuffmanTreeNode → Q
  top : Q → HuffmanTreeNode
  pop : Q → Q
  size : Q → Nat
  elems : Q → Multiset HuffmanTreeNode
  elems_empty : elems empty = 0
  elems_push : ∀ q x, elems (push q x) = x ::ₘ elems q
  elems_pop : ∀ q, elems (pop q) = (elems q).erase (top q)
  size_eq : ∀ q, size q = Multiset.card (elems q)
  top_mem : ∀ q, elems q ≠ 0 → top q ∈ elems q
  top_min : ∀ q, ∀ y ∈ elems q, (top q).frequency ≤ y.frequency

/-- A priority queue meeting the contract: an unordered list scanned for an element of
least frequency. -/
def listQueue : PriorityQueue where
  Q := List HuffmanTreeNode
  empty := []
  push q x := x :: q
  top q := (q.argmin HuffmanTreeNode.frequency).getD .null
  pop q := q.erase ((q.argmin HuffmanTreeNode.frequency).getD .null)
  size q := q.length
  elems q := (q : Multiset HuffmanTreeNode)
  elems_empty := rfl
  elems_push _ _ := rfl
  elems_pop _ := rfl
  size_eq _ := rfl
  top_mem q h := by
    show (q.argmin HuffmanTreeNode.frequency).getD .null ∈ (q : Multiset HuffmanTreeNode)
    cases hm : q.argmin HuffmanTreeNode.frequency with
    | none => exact absurd (by rw [List.argmin_eq_none.1 hm]; rfl) h
    | some m => simpa using List.argmin_mem hm
  top_min q y hy := by
    show ((q.argmin HuffmanTreeNode.frequency).getD .null).frequency ≤ y.frequency
    have hy1 : y ∈ q := by simpa using hy
    cases hm : q.argmin HuffmanTreeNode.frequency with
    | none => rw [List.argmin_eq_none.1 hm] at hy1; simp at hy1
    | some m => exact List.le_of_mem_argmin hy1 hm

/-! ## `BuildHuffmanTree` -/

/-- The loop `while(min_heap.size() > 1)` of `BuildHuffmanTree`, on the state
`(min_heap, root)`; the value is the `root` the function returns. -/
def mergeLoop (H : PriorityQueue) (min_heap : H.Q) (root : HuffmanTreeNode) :
    HuffmanTreeNode :=
  if 1 < H.size min_heap then
    let left_node := H.top min_heap
    let heap1 := H.pop min_heap
    let right_node := H.top heap1
    let heap2 := H.pop heap1
    let root1 := newInternal left_node right_node
    mergeLoop H (H.push heap2 root1) root1
  else root
termination_by H.size min_heap
decreasing_by
  rename_i h
  simp only [H.size_eq, H.elems_push, H.elems_pop, Multiset.card_cons] at h ⊢
  have h0 : H.elems min_heap ≠ 0 := by
    intro h0; rw [h0] at h; simp at h
  have h1 := Multiset.card_erase_of_mem (H.top_mem min_heap h0)
  have h2 : (H.elems min_heap).erase (H.top min_heap) ≠ 0 := by
    intro h2; rw [h2] at h1; simp at h1; omega
  have h3 := Multiset.card_erase_of_mem
    (H.top_mem (H.pop min_heap) (by rw [H.elems_pop]; exact h2))
  rw [H.elems_pop] at h3
  rw [h3, h1]
  simp only [Nat.pred_eq_sub_one]
  omega

/-- The heap after the loop `for(const auto& character : characters)`, which pushes one
leaf per distinct character, in the order of the set. -/
def pushLeaves (H : PriorityQueue) (frequency_table : FrequencyTable)
    (characters : List CChar) : H.Q :=
  characters.foldl
    (fun min_heap character =>
      H.push min_heap (newLeaf character ((frequency_table character).getD 0)))
    H.empty

/-- The function `BuildHuffmanTree`. -/
def BuildHuffmanTree (H : PriorityQueue) (text : CString) : HuffmanTreeNode :=
  let frequency_table := CreateFrequencyTable text (fun _ => none)
  let min_heap := pushLeaves H frequency_table (characters text)
  mergeLoop H min_heap .null

/-! ## `CreateLookupTable`, `Encode`, `Decode` -/

/-- The function `CreateLookupTable`: a pre-order walk that stores `code` at every node
passing the test `character > -1`. -/
def CreateLookupTable : HuffmanTreeNode → LookupTable → CString → LookupTable
  | .null, lookup_table, _ => lookup_table
  | .node character _ left right, lookup_table, code =>
    let table1 :=
      if (-1 : Int) < character.val then Function.update lookup_table character (some code)
      else lookup_table
    let table2 := CreateLookupTable left table1 (code ++ [bit0])
    CreateLookupTable right table2 (code ++ [bit1])

/-- The table `lookup_table` that `Encode` and `main` derive from the tree of a text. -/
def lookupTableOf (H : PriorityQueue) (text : CString) : LookupTable :=
  CreateLookupTable (BuildHuffmanTree H text) (fun _ => none) []

/-- The expression `lookup_table[character]` of `Encode`: a missing key reads as the
empty string. -/
def lookupCode (lookup_table : LookupTable) (character : CChar) : CString :=
  (lookup_table character).getD []

/-- The loop of `Encode`: the codes of the characters, concatenated. -/
def encodeWith (lookup_table : LookupTable) : CString → CString
  | [] => []
  | character :: rest => lookupCode lookup_table character ++ encodeWith lookup_table rest

/-- The function `Encode`. -/
def Encode (H : PriorityQueue) (text : CString) : CString :=
  encodeWith (lookupTableOf H text) text

/-- One move of the cursor in `Decode`: `current_node->left` on `'0'`,
`current_node->right` on `'1'`, the cursor itself on any other character. `none` is the
dereference of a null pointer. -/
def moveCursor (character : CChar) : HuffmanTreeNode → Option HuffmanTreeNode
  | .null => if character = bit0 ∨ character = bit1 then none else some .null
  | .node c f left right =>
    if character = bit0 then some left
    else if character = bit1 then some right
    else some (.node c f left right)

/-- The loop of `Decode` on the state `(current_node, decoded_text)`; the result is the
final state, or `none` when a null pointer is dereferenced. -/
def DecodeLoop (root : HuffmanTreeNode) :
    CString → HuffmanTreeNode → CString → Option (HuffmanTreeNode × CString)
  | [], current_node, decoded_text => some (current_node, decoded_text)
  | character :: rest, current_node, decoded_text =>
    match moveCursor character current_node with
    | none => none
    | some .null => none
    | some (.node c f left right) =>
      if (-1 : Int) < c.val then DecodeLoop root rest root (decoded_text ++ [c])
      else DecodeLoop root rest (.node c f left right) decoded_text

/-- The function `Decode`. -/
def Decode (encoded_text : CString) (root : HuffmanTreeNode) : Option CString :=
  (DecodeLoop root encoded_text root []).map Prod.snd

/-! ## Vocabulary of the claims -/

/-- The text contains at least two distinct characters. -/
def TwoDistinct (text : CString) : Prop :=
  ∃ a ∈ text, ∃ b ∈ text, a ≠ b

/-- Every character of the text has a non-negative `char` value, that is, passes the leaf
test `character > -1`. -/
def NonNegative (text : CString) : Prop :=
  ∀ c ∈ text, (-1 : Int) < c.val

/-! ## Vocabulary of the merge loop -/

/-- The leaf the loop over the set pushes for a character. -/
def leafOf (frequency_table : FrequencyTable) (character : CChar) : HuffmanTreeNode :=
  newLeaf character ((frequency_table character).getD 0)

/-- One merge, on the multiset of the heap: `x` and `y` are extracted, their parent is
inserted. -/
def mergeStep (F : Multiset HuffmanTreeNode) (x y : HuffmanTreeNode) :
    Multiset HuffmanTreeNode :=
  newInternal x y ::ₘ (F.erase x).erase y

/-- The two extractions of one iteration: `x` is a least element of the heap, `y` a least
element of what is left. -/
structure Extracted (F : Multiset HuffmanTreeNode) (x y : HuffmanTreeNode) : Prop where
  mem_left : x ∈ F
  mem_right : y ∈ F.erase x
  min_left : ∀ z ∈ F, x.frequency ≤ z.frequency
  min_right : ∀ z ∈ F.erase x, y.frequency ≤ z.frequency

/-! ## Vocabulary of the trees -/

/-- The trees the program constructs: a leaf by `new HuffmanTreeNode(character, frequency)`,
an internal node by the `new` expression of the merge loop on two constructed trees. -/
inductive Built : HuffmanTreeNode → Prop
  | leaf (character : CChar) (frequency : Nat) : Built (newLeaf character frequency)
  | internal (left_node right_node : HuffmanTreeNode) :
      Built left_node → Built right_node → Built (newInternal left_node right_node)

/-- The leaves (childless nodes) of a tree from left to right, each with its character and
its frequency. -/
def leaves : HuffmanTreeNode → List (CChar × Nat)
  | .null => []
  | .node c f .null .null => [(c, f)]
  | .node _ _ left right => leaves left ++ leaves right

/-- The nodes of a tree, each as the subtree it roots. -/
def subtrees : HuffmanTreeNode → List HuffmanTreeNode
  | .null => []
  | .node c f left right => .node c f left right :: (subtrees left ++ subtrees right)

/-- The writes `lookup_table[character] = code` that `CreateLookupTable` performs, in
order. -/
def codes : HuffmanTreeNode → CString → List (CChar × CString)
  | .null, _ => []
  | .node c _ left right, code =>
    (if (-1 : Int) < c.val then [(c, code)] else []) ++
      (codes left (code ++ [bit0]) ++ codes right (code ++ [bit1]))

/-- The multiset of leaves of the trees of a heap. -/
def forestLeaves (F : Multiset HuffmanTreeNode) : Multiset (CChar × Nat) :=
  (F.map (fun t => (leaves t : Multiset (CChar × Nat)))).sum

/-- The leaves `BuildHuffmanTree` pushes for a text: one per distinct character, in the
order of the set, with the frequency read from the table. -/
def initialLeaves (text : CString) : List (CChar × Nat) :=
  (characters text).map
    (fun c => (c, ((CreateFrequencyTable text (fun _ => none)) c).getD 0))

/-- The heap invariant: every tree of the heap is a constructed tree, and the leaves of
the trees of the heap are, as a multiset, the leaves `L` pushed at the start. -/
def HeapInv (L : Multiset (CChar × Nat)) (F : Multiset HuffmanTreeNode) : Prop :=
  (∀ t ∈ F, Built t) ∧ forestLeaves F = L

/-- The assignment `lookup_table[character] = code`. -/
def writeCode (lookup_table : LookupTable) (e : CChar × CString) : LookupTable :=
  Function.update lookup_table e.1 (some e.2)

/-! ## The trees a heap can lead to -/

/-- The elements of least frequency of a list: what `top` may return. -/
def minima (F : List HuffmanTreeNode) : List HuffmanTreeNode :=
  F.filter (fun x => F.all (fun z => decide (x.frequency ≤ z.frequency)))

/-- Every root the merge loop can return from a heap holding the trees `F`, over all the
ways of choosing among elements of least frequency; `fuel` bounds the number of merges. -/
def outcomes : Nat → List HuffmanTreeNode → List HuffmanTreeNode
  | 0, F => F
  | fuel + 1, F =>
    if F.length ≤ 1 then F
    else
      (minima F).flatMap fun x =>
        (minima (F.erase x)).flatMap fun y =>
          outcomes fuel (newInternal x y :: (F.erase x).erase y)

/-! ## The concrete scenario -/

/-- The text `"aaab"` (`'a'` is 97, `'b'` is 98). -/
def text_aaab : CString := [CChar.ofInt 97, CChar.ofInt 97, CChar.ofInt 97, CChar.ofInt 98]

/-- The tree of the scenario: a root of weight 4 over the leaf `b` (weight 1) on the left
and the leaf `a` (weight 3) on the right. -/
def tree_aaab : HuffmanTreeNode :=
  .node (CChar.ofInt (-1)) 4
    (.node (CChar.ofInt 98) 1 .null .null)
    (.node (CChar.ofInt 97) 3 .null .null)

/-! ## Vocabulary of the frequencies -/

/-- The sum of the frequencies of the leaves of a tree. -/
def weight (t : HuffmanTreeNode) : Nat :=
  ((leaves t).map Prod.snd).sum

/-- The weight invariant: every node of the tree that has a child has a frequency equal
to the sum of the frequencies of its left and right children. -/
def WeightInvariant (t : HuffmanTreeNode) : Prop :=
  ∀ c f left right, HuffmanTreeNode.node c f left right ∈ subtrees t →
    (left ≠ .null ∨ right ≠ .null) → f = left.frequency + right.frequency

/-- The text made of `2 ^ 32` copies of the character `'a'`. -/
@[irreducible]
def text_wrap : CString := List.replicate (2 ^ 32) (CChar.ofInt 97)

/-- The text made of `2 ^ 31` copies of `'a'` followed by `2 ^ 31` copies of `'b'`. -/
@[irreducible]
def text_halves : CString :=
  List.replicate (2 ^ 31) (CChar.ofInt 97) ++ List.replicate (2 ^ 31) (CChar.ofInt 98)

/-! ## Vocabulary of the decoder -/

/-- What the loop of `Decode` does once the cursor has moved onto `t`: the leaf test, then
the rest of the loop. -/
def arrive (root : HuffmanTreeNode) (t : HuffmanTreeNode) (rest : CString)
    (decoded_text : CString) : Option (HuffmanTreeNode × CString) :=
  match t with
  | .null => none
  | .node c f left right =>
    if (-1 : Int) < c.val then DecodeLoop root rest root (decoded_text ++ [c])
    else DecodeLoop root rest (.node c f left right) decoded_text

/-- The characters of a text that pass the leaf test `character > -1`. -/
def leafTested (text : CString) : CString :=
  text.filter (fun c => decide ((-1 : Int) < c.val))

/-! ## Texts of the counterexamples -/

/-- The two bytes of the UTF-8 encoding of `é`, `0xC3 0xA9`, as `char` values. -/
def text_utf8 : CString := [CChar.ofInt (-61), CChar.ofInt (-87)]

/-- The text `"aaa"`. -/
def text_aaa : CString := [CChar.ofInt 97, CChar.ofInt 97, CChar.ofInt 97]

instance (text : CString) : Decidable (NonNegative text) := by
  unfold NonNegative
  infer_instance

/-! ## Vocabulary of truncation -/

/-- The walk of `Decode` over `bits` ends with the cursor off the root: the stream ends in
the middle of a code. -/
def EndsMidCode (root : HuffmanTreeNode) (bits : CString) : Prop :=
  ∃ cur acc, DecodeLoop root bits root [] = some (cur, acc) ∧ cur ≠ root

/-- The text `"abbcccc"` (`'c'` is 99). -/
def text_abbcccc : CString :=
  [CChar.ofInt 97, CChar.ofInt 98, CChar.ofInt 98, CChar.ofInt 99, CChar.ofInt 99,
    CChar.ofInt 99, CChar.ofInt 99]

/-- The tree of `"abbcccc"`: the leaves `a` (1) and `b` (2) under a node of weight 3 on the
left, the leaf `c` (4) on the right. -/
def tree_abbcccc : HuffmanTreeNode :=
  newInternal (newInternal (newLeaf (CChar.ofInt 97) 1) (newLeaf (CChar.ofInt 98) 2))
    (newLeaf (CChar.ofInt 99) 4)

/-! ## Vocabulary of optimality -/

/-- The Kraft sum of a multiset of depths at the scale `D`: each depth `d` counts for
`2 ^ (D - d)`. -/
def kraftSum (D : Nat) (ds : Multiset Nat) : Nat :=
  (ds.map (fun d => 2 ^ (D - d))).sum

/-- A multiset of pairs (weight, depth) whose depths fit a binary tree of height at most
`D`: no depth exceeds `D` and the Kraft sum is at most `2 ^ D`. -/
def Admissible (D : Nat) (m : Multiset (Nat × Nat)) : Prop :=
  (∀ p ∈ m, p.2 ≤ D) ∧ kraftSum D (m.map Prod.snd) ≤ 2 ^ D

/-- The weighted path length of a multiset of pairs (weight, depth). -/
def assignmentCost (m : Multiset (Nat × Nat)) : Nat :=
  (m.map (fun p => p.1 * p.2)).sum

/-- The leaves of a tree from left to right, each with its character and its depth, the
root of the tree being at depth `d`. -/
def leafDepths : HuffmanTreeNode → Nat → List (CChar × Nat)
  | .null, _ => []
  | .node c _ .null .null, d => [(c, d)]
  | .node _ _ left right, d => leafDepths left (d + 1) ++ leafDepths right (d + 1)

/-- The weighted path length of a tree for a text: the sum over the leaves of the number
of occurrences of the character of the leaf in the text times the depth of the leaf. -/
def pathLength (text : CString) (t : HuffmanTreeNode) : Nat :=
  ((leafDepths t 0).map (fun e => text.count e.1 * e.2)).sum

/-- The number of occurrences in the text of the characters of the leaves of a tree. -/
def countWeight (text : CString) (t : HuffmanTreeNode) : Nat :=
  ((leaves t).map (fun e => text.count e.1)).sum

/-- The heap invariant on frequencies, for a text without `unsigned` overflow: every tree
of the heap is a constructed tree whose frequency field is the number of occurrences of
its leaves, and these numbers add up to `T`. -/
def CountInv (text : CString) (T : Nat) (F : Multiset HuffmanTreeNode) : Prop :=
  (∀ t ∈ F, Built t ∧ t.frequency = countWeight text t) ∧
    (F.map (countWeight text)).sum = T

/-! ## Texts whose counts overflow -/

/-- The text made of `2 ^ 32` copies of `'a'` followed by `"bc"`. -/
@[irreducible]
def text_skew : CString :=
  List.replicate (2 ^ 32) (CChar.ofInt 97) ++ [CChar.ofInt 98, CChar.ofInt 99]

/-- A tree over the characters `a`, `b`, `c` with `a` at depth 1. -/
def tree_shallow_a : HuffmanTreeNode :=
  newInternal (newLeaf (CChar.ofInt 97) 0)
    (newInternal (newLeaf (CChar.ofInt 98) 1) (newLeaf (CChar.ofInt 99) 1))

/-- The tree of `"aaab"` mirrored: the leaf `a` on the left, the leaf `b` on the right. -/
def tree_aaab_mirrored : HuffmanTreeNode :=
  newInternal (newLeaf (CChar.ofInt 97) 3) (newLeaf (CChar.ofInt 98) 1)

/-- At least one character of the text occurs more often than the average over the
distinct characters: its count times the number of distinct characters exceeds the length
of the text. -/
def Skewed (text : CString) : Prop :=
  ∃ c ∈ text, text.length < text.count c * (characters text).length

/-- The text `"bccdddd..."`: for `i` from 0 to 8, `2 ^ i` copies of the character of code
`98 + i` (`'b'` to `'j'`); 511 characters in all. -/
def tail_deep : CString :=
  (List.range 9).flatMap (fun (i : Nat) => List.replicate (2 ^ i) (CChar.ofInt (98 + (i : Int))))

/-- The text made of `2 ^ 32` copies of `'a'` followed by `tail_deep`. -/
@[irreducible]
def text_deep : CString :=
  List.replicate (2 ^ 32) (CChar.ofInt 97) ++ tail_deep

/-- The leaves pushed for `text_deep`: the count of `'a'` has wrapped to `0`. -/
def leaves_deep : List HuffmanTreeNode :=
  newLeaf (CChar.ofInt 97) 0 ::
    (List.range 9).map (fun (i : Nat) => newLeaf (CChar.ofInt (98 + (i : Int))) (2 ^ i))

/-! ## Vocabulary of the later claims -/

/-- The character is one of the two bit characters `'0'` and `'1'`. -/
def isBit (character : CChar) : Bool :=
  decide (character = bit0 ∨ character = bit1)

/-- The text `"baaa"`, a permutation of `"aaab"`. -/
def text_baaa : CString := [CChar.ofInt 98, CChar.ofInt 97, CChar.ofInt 97, CChar.ofInt 97]

/-- Following a string from a node, left on `'0'` and right on `'1'`, without the reset of
`Decode`: the node reached, or `none` when a child is followed through a null pointer or a
character is not a bit. -/
def descend : HuffmanTreeNode → CString → Option HuffmanTreeNode
  | t, [] => some t
  | .null, _ :: _ => none
  | .node _ _ left right, b :: rest =>
    if b = bit0 then descend left rest
    else if b = bit1 then descend right rest
    else none

/-- A cursor position from which `Decode` is safe: an internal node made by the merge
loop over two constructed trees, all of whose leaves pass the leaf test. -/
def SafeCursor (t : HuffmanTreeNode) : Prop :=
  ∃ l r, t = newInternal l r ∧ Built l ∧ Built r ∧ ∀ e ∈ leaves t, (-1 : Int) < e.1.val

/-- The merge order: in every node of the tree that has a child, the frequency of the
left child is at most the frequency of the right child. -/
def LeftLightest (t : HuffmanTreeNode) : Prop :=
  ∀ c f left right, HuffmanTreeNode.node c f left right ∈ subtrees t →
    (left ≠ .null ∨ right ≠ .null) → left.frequency ≤ right.frequency

/-- The number of iterations of the loop `while(min_heap.size() > 1)` of
`BuildHuffmanTree` from a heap: the recursion of `mergeLoop`, counting. -/
def mergeIterations (H : PriorityQueue) (min_heap : H.Q) : Nat :=
  if 1 < H.size min_heap then
    let left_node := H.top min_heap
    let heap1 := H.pop min_heap
    let right_node := H.top heap1
    let heap2 := H.pop heap1
    let root1 := newInternal left_node right_node
    mergeIterations H (H.push heap2 root1) + 1
  else 0
termination_by H.size min_heap
decreasing_by
  rename_i h
  simp only [H.size_eq, H.elems_push, H.elems_pop, Multiset.card_cons] at h ⊢
  have h0 : H.elems min_heap ≠ 0 := by
    intro h0; rw [h0] at h; simp at h
  have h1 := Multiset.card_erase_of_mem (H.top_mem min_heap h0)
  have h2 : (H.elems min_heap).erase (H.top min_heap) ≠ 0 := by
    intro h2; rw [h2] at h1; simp at h1; omega
  have h3 := Multiset.card_erase_of_mem
    (H.top_mem (H.pop min_heap) (by rw [H.elems_pop]; exact h2))
  rw [H.elems_pop] at h3
  rw [h3, h1]
  simp only [Nat.pred_eq_sub_one]
  omega

/-- The node has a child. -/
def hasChild : HuffmanTreeNode → Bool
  | .null => false
  | .node _ _ .null .null => false
  | .node _ _ _ _ => true

/-- The number of internal nodes (nodes with a child) of a tree. -/
def internalCount (t : HuffmanTreeNode) : Nat :=
  ((subtrees t).filter hasChild).length

/-- The heaps `min_heap` at the start of the iterations of the loop
`while(min_heap.size() > 1)` of `BuildHuffmanTree`, in order: the recursion of
`mergeLoop`, recording the heap each iteration extracts from. In the iteration that starts
with the heap `q`, `left_node` is `H.top q`, the first extraction, and `right_node` is
`H.top (H.pop q)`, the second. -/
def mergeHeaps (H : PriorityQueue) (min_heap : H.Q) : List H.Q :=
  if 1 < H.size min_heap then
    let left_node := H.top min_heap
    let heap1 := H.pop min_heap
    let right_node := H.top heap1
    let heap2 := H.pop heap1
    let root1 := newInternal left_node right_node
    min_heap :: mergeHeaps H (H.push heap2 root1)
  else []
termination_by H.size min_heap
decreasing_by
  rename_i h
  simp only [H.size_eq, H.elems_push, H.elems_pop, Multiset.card_cons] at h ⊢
  have h0 : H.elems min_heap ≠ 0 := by
    intro h0; rw [h0] at h; simp at h
  have h1 := Multiset.card_erase_of_mem (H.top_mem min_heap h0)
  have h2 : (H.elems min_heap).erase (H.top min_heap) ≠ 0 := by
    intro h2; rw [h2] at h1; simp at h1; omega
  have h3 := Multiset.card_erase_of_mem
    (H.top_mem (H.pop min_heap) (by rw [H.elems_pop]; exact h2))
  rw [H.elems_pop] at h3
  rw [h3, h1]
  simp only [Nat.pred_eq_sub_one]
  omega

/-- The internal nodes (nodes with a child) of a tree, each as the subtree it roots. -/
def internalNodes (t : HuffmanTreeNode) : List HuffmanTreeNode :=
  (subtrees t).filter hasChild

/-- The multiset of the internal nodes of the trees of a heap. -/
def forestInternals (F : Multiset HuffmanTreeNode) : Multiset HuffmanTreeNode :=
  (F.map (fun t => (internalNodes t : Multiset HuffmanTreeNode))).sum

/-- The node the iteration that starts with the heap `q` creates: the first extraction on
the left, the second on the right. -/
def mergedNode (H : PriorityQueue) (q : H.Q) : HuffmanTreeNode :=
  newInternal (H.top q) (H.top (H.pop q))

/-- The text `"ab"`, whose two leaves have the same frequency. -/
def text_ab : CString := [CChar.ofInt 97, CChar.ofInt 98]

/-! # Properties -/

/-! ## The frequency table -/

theorem UNSIGNED_MOD_pos : 0 < UNSIGNED_MOD := by unfold UNSIGNED_MOD; norm_num

/-- What `CreateFrequencyTable` leaves at a key, whatever the table it starts from: an
untouched entry when the character does not occur, and otherwise the old count (zero when
absent) plus the number of occurrences, modulo `2 ^ 32`. -/
theorem CreateFrequencyTable_apply (text : CString) :
    ∀ (tbl : FrequencyTable) (c : CChar),
      CreateFrequencyTable text tbl c =
        if text.count c = 0 then tbl c
        else some (((tbl c).getD 0 + text.count c) % UNSIGNED_MOD) := by
  induction text with
  | nil => intro tbl c; simp [CreateFrequencyTable]
  | cons d rest ih =>
    intro tbl c
    have hM := UNSIGNED_MOD_pos
    have h1 : 1 % UNSIGNED_MOD = 1 := by unfold UNSIGNED_MOD; norm_num
    unfold CreateFrequencyTable
    by_cases hcd : c = d
    · subst hcd
      cases htbl : tbl c with
      | none =>
        simp only [ih, Function.update_same, List.count_cons_self, Option.getD_some,
          Option.getD_none]
        by_cases h0 : rest.count c = 0
        · simp [h0, h1]
        · simp [h0, Nat.add_comm]
      | some n =>
        simp only [ih, Function.update_same, List.count_cons_self, Option.getD_some]
        by_cases h0 : rest.count c = 0
        · simp [h0]
        · simp only [h0, if_false, Nat.add_one_ne_zero]
          congr 1
          rw [Nat.add_mod, Nat.mod_mod, ← Nat.add_mod]
          congr 1
          omega
    · have hdc : d ≠ c := fun h => hcd h.symm
      have hcount : (d :: rest).count c = rest.count c := by
        simp [List.count_cons, hdc]
      cases htbl : tbl d with
      | none => simp only [ih, Function.update_noteq hcd, hcount]
      | some n => simp only [ih, Function.update_noteq hcd, hcount]

/-- The table `frequency_table` of `BuildHuffmanTree`: the keys are the characters that
occur, the value is the number of occurrences modulo `2 ^ 32`. -/
theorem CreateFrequencyTable_empty (text : CString) (c : CChar) :
    CreateFrequencyTable text (fun _ => none) c =
      if text.count c = 0 then none else some (text.count c % UNSIGNED_MOD) := by
  rw [CreateFrequencyTable_apply]
  simp

/-! ## The set of characters -/

theorem mem_setInsert (c x : CChar) : ∀ (l : List CChar), x ∈ setInsert c l ↔ x = c ∨ x ∈ l
  | [] => by simp [setInsert]
  | d :: rest => by
    unfold setInsert
    split
    · simp
    · split
      · rename_i h; subst h; simp
      · simp only [List.mem_cons, mem_setInsert c x rest]
        tauto

theorem sorted_setInsert (c : CChar) :
    ∀ (l : List CChar), l.Sorted (· < ·) → (setInsert c l).Sorted (· < ·)
  | [], _ => by simp [setInsert]
  | d :: rest, h => by
    unfold setInsert
    have hd := List.sorted_cons.1 h
    split
    · rename_i hcd
      refine List.sorted_cons.2 ⟨?_, h⟩
      intro b hb
      rcases List.mem_cons.1 hb with rfl | hb
      · exact hcd
      · exact lt_trans hcd (hd.1 b hb)
    · split
      · exact h
      · rename_i h1 h2
        refine List.sorted_cons.2 ⟨?_, sorted_setInsert c rest hd.2⟩
        intro b hb
        rcases (mem_setInsert c b rest).1 hb with rfl | hb
        · exact lt_of_le_of_ne (not_lt.1 h1) (fun h => h2 h.symm)
        · exact hd.1 b hb

theorem foldl_setInsert (text : CString) :
    ∀ (s : List CChar), s.Sorted (· < ·) →
      (text.foldl (fun s c => setInsert c s) s).Sorted (· < ·) ∧
      ∀ x, x ∈ text.foldl (fun s c => setInsert c s) s ↔ x ∈ s ∨ x ∈ text := by
  induction text with
  | nil => intro s hs; simp [hs]
  | cons d rest ih =>
    intro s hs
    have := ih (setInsert d s) (sorted_setInsert d s hs)
    refine ⟨this.1, fun x => ?_⟩
    rw [List.foldl_cons, this.2 x, mem_setInsert]
    simp only [List.mem_cons]
    tauto

/-- The set iterates in strictly increasing order. -/
theorem characters_sorted (text : CString) : (characters text).Sorted (· < ·) :=
  (foldl_setInsert text [] List.sorted_nil).1

/-- The set holds exactly the characters of the text. -/
theorem mem_characters (text : CString) (c : CChar) : c ∈ characters text ↔ c ∈ text := by
  unfold characters
  rw [(foldl_setInsert text [] List.sorted_nil).2 c]
  simp

theorem characters_nodup (text : CString) : (characters text).Nodup :=
  (characters_sorted text).nodup

/-- The set is the only strictly increasing list with the members of the text. -/
theorem characters_eq_of_sorted (text : CString) (l : List CChar) (hl : l.Sorted (· < ·))
    (hmem : ∀ c, c ∈ l ↔ c ∈ text) : characters text = l := by
  apply List.eq_of_perm_of_sorted ?_ (characters_sorted text) hl
  rw [List.perm_ext_iff_of_nodup (characters_nodup text) hl.nodup]
  intro c
  rw [mem_characters, hmem]

/-! ## The heap of leaves and the merge loop -/

theorem elems_foldl_push (H : PriorityQueue) (f : CChar → HuffmanTreeNode) (cs : List CChar) :
    ∀ q : H.Q, H.elems (cs.foldl (fun q c => H.push q (f c)) q) =
      (cs.map f : Multiset HuffmanTreeNode) + H.elems q := by
  induction cs with
  | nil => intro q; simp
  | cons c rest ih =>
    intro q
    rw [List.foldl_cons, ih, H.elems_push]
    simp only [List.map_cons, ← Multiset.cons_coe]
    rw [Multiset.add_cons, Multiset.cons_add]

theorem elems_pushLeaves (H : PriorityQueue) (tbl : FrequencyTable) (cs : List CChar) :
    H.elems (pushLeaves H tbl cs) = (cs.map (leafOf tbl) : Multiset HuffmanTreeNode) := by
  unfold pushLeaves
  have := elems_foldl_push H (leafOf tbl) cs H.empty
  rw [H.elems_empty, add_zero] at this
  exact this

theorem mergeLoop_done (H : PriorityQueue) (q : H.Q) (root : HuffmanTreeNode)
    (h : H.size q ≤ 1) : mergeLoop H q root = root := by
  rw [mergeLoop]
  simp [Nat.not_lt.2 h]

theorem mergeLoop_step (H : PriorityQueue) (q : H.Q) (root : HuffmanTreeNode)
    (h : 1 < H.size q) :
    mergeLoop H q root =
      mergeLoop H (H.push (H.pop (H.pop q)) (newInternal (H.top q) (H.top (H.pop q))))
        (newInternal (H.top q) (H.top (H.pop q))) := by
  rw [mergeLoop]
  simp [h]

theorem extracted_of_size (H : PriorityQueue) (q : H.Q) (h : 1 < H.size q) :
    Extracted (H.elems q) (H.top q) (H.top (H.pop q)) ∧
    H.elems (H.push (H.pop (H.pop q)) (newInternal (H.top q) (H.top (H.pop q)))) =
      mergeStep (H.elems q) (H.top q) (H.top (H.pop q)) ∧
    Multiset.card (mergeStep (H.elems q) (H.top q) (H.top (H.pop q))) + 1 =
      Multiset.card (H.elems q) := by
  rw [H.size_eq] at h
  have h0 : H.elems q ≠ 0 := by
    intro h0; rw [h0] at h; simp at h
  have hx := H.top_mem q h0
  have h1 := Multiset.card_erase_of_mem hx
  have h2 : H.elems (H.pop q) ≠ 0 := by
    rw [H.elems_pop]
    intro h2; rw [h2] at h1; simp at h1; omega
  have hy := H.top_mem (H.pop q) h2
  have h3 := Multiset.card_erase_of_mem hy
  refine ⟨⟨hx, ?_, H.top_min q, ?_⟩, ?_, ?_⟩
  · rw [← H.elems_pop]; exact hy
  · rw [← H.elems_pop]; exact H.top_min (H.pop q)
  · rw [H.elems_push, H.elems_pop, H.elems_pop]; rfl
  · unfold mergeStep
    rw [H.elems_pop] at h3
    rw [Multiset.card_cons, h3, h1]
    simp only [Nat.pred_eq_sub_one]
    omega

/-- The invariant rule of the merge loop: a property of the multiset of trees in the heap
that every merge preserves holds, when the loop is entered with two trees or more, of the
heap that holds the returned root alone. -/
theorem mergeLoop_invariant (H : PriorityQueue) (P : Multiset HuffmanTreeNode → Prop)
    (step : ∀ F x y, Extracted F x y → P F → P (mergeStep F x y)) :
    ∀ (n : Nat) (q : H.Q) (root : HuffmanTreeNode),
      Multiset.card (H.elems q) = n + 1 → P (H.elems q) → (n = 0 → H.elems q = {root}) →
      P {mergeLoop H q root} := by
  intro n
  induction n with
  | zero =>
    intro q root hcard hP hroot
    rw [mergeLoop_done H q root (by rw [H.size_eq, hcard]), ← hroot rfl]
    exact hP
  | succ n ih =>
    intro q root hcard hP _
    have hsize : 1 < H.size q := by rw [H.size_eq, hcard]; omega
    obtain ⟨hex, helems, hc⟩ := extracted_of_size H q hsize
    rw [mergeLoop_step H q root hsize]
    apply ih
    · rw [helems]; omega
    · rw [helems]; exact step _ _ _ hex hP
    · intro hn
      rw [helems]
      have : Multiset.card ((H.elems q).erase (H.top q) |>.erase (H.top (H.pop q))) = 0 := by
        have := hc
        unfold mergeStep at this
        rw [Multiset.card_cons] at this
        omega
      unfold mergeStep
      rw [Multiset.card_eq_zero.1 this]
      rfl

/-! ## Constructed trees -/

theorem Built.ne_null {t : HuffmanTreeNode} (h : Built t) : t ≠ .null := by
  cases h <;> simp [newLeaf, newInternal]

theorem leaves_newLeaf (c : CChar) (f : Nat) : leaves (newLeaf c f) = [(c, f)] := rfl

theorem leaves_newInternal {l r : HuffmanTreeNode} (hl : Built l) :
    leaves (newInternal l r) = leaves l ++ leaves r := by
  unfold newInternal
  cases l with
  | null => exact absurd rfl hl.ne_null
  | node c f a b => simp [leaves]

theorem Built.leaves_ne_nil {t : HuffmanTreeNode} (h : Built t) : leaves t ≠ [] := by
  induction h with
  | leaf c f => simp [leaves_newLeaf]
  | internal l r hl _ ihl _ => simp [leaves_newInternal hl, ihl]

theorem sentinel_not_leaf : ¬ (-1 : Int) < (CChar.ofInt (-1)).val := by decide

theorem codes_newLeaf (c : CChar) (f : Nat) (p : CString) :
    codes (newLeaf c f) p = if (-1 : Int) < c.val then [(c, p)] else [] := by
  simp [newLeaf, codes]

theorem codes_newInternal (l r : HuffmanTreeNode) (p : CString) :
    codes (newInternal l r) p = codes l (p ++ [bit0]) ++ codes r (p ++ [bit1]) := by
  simp [newInternal, codes, sentinel_not_leaf]

theorem subtrees_newInternal (l r : HuffmanTreeNode) :
    subtrees (newInternal l r) = newInternal l r :: (subtrees l ++ subtrees r) := rfl

theorem Built.of_mem_subtrees {t : HuffmanTreeNode} (h : Built t) :
    ∀ n ∈ subtrees t, Built n := by
  induction h with
  | leaf c f =>
    intro n hn
    simp [newLeaf, subtrees] at hn
    subst hn
    exact Built.leaf c f
  | internal l r hl hr ihl ihr =>
    intro n hn
    rw [subtrees_newInternal] at hn
    rcases List.mem_cons.1 hn with rfl | hn
    · exact Built.internal l r hl hr
    · rcases List.mem_append.1 hn with hn | hn
      · exact ihl n hn
      · exact ihr n hn

/-! ## The invariant of the merge loop -/

theorem forestLeaves_mergeStep (F : Multiset HuffmanTreeNode) (x y : HuffmanTreeNode)
    (h : Extracted F x y) (hx : Built x) :
    forestLeaves (mergeStep F x y) = forestLeaves F := by
  have e1 : F = x ::ₘ y ::ₘ ((F.erase x).erase y) := by
    rw [Multiset.cons_erase h.mem_right, Multiset.cons_erase h.mem_left]
  conv_rhs => rw [e1]
  unfold forestLeaves mergeStep
  simp only [Multiset.map_cons, Multiset.sum_cons, leaves_newInternal hx]
  rw [← add_assoc, Multiset.coe_add]

theorem HeapInv_mergeStep (L : Multiset (CChar × Nat)) (F : Multiset HuffmanTreeNode)
    (x y : HuffmanTreeNode) (h : Extracted F x y) (hF : HeapInv L F) :
    HeapInv L (mergeStep F x y) := by
  have hx := hF.1 x h.mem_left
  have hy := hF.1 y (Multiset.mem_of_mem_erase h.mem_right)
  refine ⟨?_, ?_⟩
  · intro t ht
    unfold mergeStep at ht
    rcases Multiset.mem_cons.1 ht with rfl | ht
    · exact Built.internal x y hx hy
    · exact hF.1 t (Multiset.mem_of_mem_erase (Multiset.mem_of_mem_erase ht))
  · rw [forestLeaves_mergeStep F x y h hx]; exact hF.2

theorem HeapInv_initial (H : PriorityQueue) (text : CString) :
    HeapInv (initialLeaves text : Multiset (CChar × Nat))
      (H.elems (pushLeaves H (CreateFrequencyTable text (fun _ => none)) (characters text))) := by
  rw [elems_pushLeaves]
  refine ⟨?_, ?_⟩
  · intro t ht
    simp only [Multiset.mem_coe, List.mem_map] at ht
    obtain ⟨c, _, rfl⟩ := ht
    exact Built.leaf _ _
  · unfold forestLeaves initialLeaves
    generalize characters text = cs
    induction cs with
    | nil => rfl
    | cons c rest ih =>
      simp only [List.map_cons, ← Multiset.cons_coe, Multiset.map_cons, Multiset.sum_cons]
      rw [Multiset.map_coe] at ih
      rw [Multiset.map_coe, ih]
      rfl

theorem card_pushLeaves (H : PriorityQueue) (text : CString) :
    Multiset.card
      (H.elems (pushLeaves H (CreateFrequencyTable text (fun _ => none)) (characters text))) =
      (characters text).length := by
  rw [elems_pushLeaves]; simp

/-- With fewer than two distinct characters the loop is not entered: the function returns
the null pointer `root` was initialised with. -/
theorem BuildHuffmanTree_null (H : PriorityQueue) (text : CString)
    (h : (characters text).length ≤ 1) : BuildHuffmanTree H text = .null := by
  unfold BuildHuffmanTree
  apply mergeLoop_done
  rw [H.size_eq, card_pushLeaves]
  exact h

/-- With two distinct characters or more the function returns a constructed tree whose
leaves are, up to order, the leaves pushed at the start. -/
theorem BuildHuffmanTree_built (H : PriorityQueue) (text : CString)
    (h : 2 ≤ (characters text).length) :
    Built (BuildHuffmanTree H text) ∧
      (leaves (BuildHuffmanTree H text)).Perm (initialLeaves text) := by
  obtain ⟨n, hn⟩ : ∃ n, (characters text).length = n + 1 := ⟨(characters text).length - 1, by omega⟩
  have := mergeLoop_invariant H (HeapInv (initialLeaves text : Multiset (CChar × Nat)))
    (fun F x y hex hF => HeapInv_mergeStep _ F x y hex hF) n
    (pushLeaves H (CreateFrequencyTable text (fun _ => none)) (characters text)) .null
    (by rw [card_pushLeaves, hn]) (HeapInv_initial H text) (fun h0 => absurd h0 (by omega))
  refine ⟨this.1 _ (Multiset.mem_singleton_self _), ?_⟩
  have h2 := this.2
  unfold forestLeaves at h2
  simp only [Multiset.map_singleton, Multiset.sum_singleton] at h2
  exact Multiset.coe_eq_coe.1 h2

theorem twoDistinct_iff (text : CString) : TwoDistinct text ↔ 2 ≤ (characters text).length := by
  have hnd := characters_nodup text
  have hmem := mem_characters text
  generalize characters text = cs at hnd hmem
  constructor
  · rintro ⟨a, ha, b, hb, hab⟩
    have ha1 := (hmem a).2 ha
    have hb1 := (hmem b).2 hb
    match cs, ha1, hb1 with
    | [x], ha1, hb1 =>
      simp at ha1 hb1
      exact absurd (ha1.trans hb1.symm) hab
    | x :: y :: rest, _, _ => simp
  · intro h
    match cs, h, hnd, hmem with
    | x :: y :: rest, _, hnd, hmem =>
      refine ⟨x, (hmem x).1 (by simp), y, (hmem y).1 (by simp), ?_⟩
      intro hxy
      simp [hxy] at hnd

/-! ## The lookup table -/

/-- The table after `CreateLookupTable` is the table before with the writes applied in
order. -/
theorem CreateLookupTable_eq_foldl (t : HuffmanTreeNode) :
    ∀ (tbl : LookupTable) (p : CString),
      CreateLookupTable t tbl p =
        (codes t p).foldl writeCode tbl := by
  induction t with
  | null => intro tbl p; rfl
  | node c f l r ihl ihr =>
    intro tbl p
    simp only [CreateLookupTable, codes, List.foldl_append, ihl, ihr]
    split <;> simp [writeCode]

theorem foldl_update_some (l : List (CChar × CString)) :
    ∀ (tbl : LookupTable) (c : CChar) (v : CString),
      (l.foldl writeCode tbl) c = some v →
      tbl c = some v ∨ (c, v) ∈ l := by
  induction l with
  | nil => intro tbl c v h; exact Or.inl h
  | cons e rest ih =>
    intro tbl c v h
    rw [List.foldl_cons] at h
    unfold writeCode at h
    rcases ih _ c v h with h1 | h1
    · by_cases hc : c = e.1
      · subst hc
        rw [Function.update_same] at h1
        right
        have : e.2 = v := Option.some.inj h1
        subst this
        exact List.mem_cons_self _ _
      · rw [Function.update_noteq hc] at h1
        exact Or.inl h1
    · exact Or.inr (List.mem_cons_of_mem _ h1)

/-- Every entry of the derived table is one of the writes of the walk. -/
theorem mem_codes_of_lookup (t : HuffmanTreeNode) (c : CChar) (v : CString)
    (h : CreateLookupTable t (fun _ => none) [] c = some v) : (c, v) ∈ codes t [] := by
  rw [CreateLookupTable_eq_foldl] at h
  rcases foldl_update_some _ _ c v h with h1 | h1
  · simp at h1
  · exact h1

/-- Every code written below a node extends the code the walk reached the node with. -/
theorem prefix_of_mem_codes (t : HuffmanTreeNode) :
    ∀ (p : CString) (e : CChar × CString), e ∈ codes t p → p <+: e.2 := by
  induction t with
  | null => intro p e h; simp [codes] at h
  | node c f l r ihl ihr =>
    intro p e h
    simp only [codes, List.mem_append] at h
    rcases h with h | h | h
    · split at h
      · simp at h; subst h; exact List.prefix_refl _
      · simp at h
    · exact (List.prefix_append p [bit0]).trans (ihl _ e h)
    · exact (List.prefix_append p [bit1]).trans (ihr _ e h)

theorem bit0_ne_bit1 : bit0 ≠ bit1 := by decide

/-- Two strings that extend `p ++ [bit0]` and `p ++ [bit1]` are not prefixes of one
another. -/
theorem not_prefix_of_branches (p a b : CString) (ha : p ++ [bit0] <+: a)
    (hb : p ++ [bit1] <+: b) : ¬ a <+: b ∧ ¬ b <+: a := by
  have key : ∀ s : CString, p ++ [bit0] <+: s → p ++ [bit1] <+: s → False := by
    intro s h0 h1
    have := List.prefix_of_prefix_length_le h0 h1 (by simp)
    have h2 := List.IsPrefix.eq_of_length this (by simp)
    have h3 := List.append_cancel_left h2
    exact bit0_ne_bit1 (by simpa using h3)
  exact ⟨fun h => key b (ha.trans h) hb, fun h => key a ha (hb.trans h)⟩

/-- The codes written for a constructed tree are pairwise prefix-free. -/
theorem codes_pairwise {t : HuffmanTreeNode} (h : Built t) :
    ∀ p : CString, (codes t p).Pairwise (fun a b => ¬ a.2 <+: b.2 ∧ ¬ b.2 <+: a.2) := by
  induction h with
  | leaf c f =>
    intro p
    rw [codes_newLeaf]
    split <;> simp
  | internal l r _ _ ihl ihr =>
    intro p
    rw [codes_newInternal, List.pairwise_append]
    refine ⟨ihl _, ihr _, ?_⟩
    intro a ha b hb
    exact not_prefix_of_branches p a.2 b.2 (prefix_of_mem_codes l _ a ha)
      (prefix_of_mem_codes r _ b hb)

/-- The tree `BuildHuffmanTree` returns is the null pointer or a constructed tree. -/
theorem BuildHuffmanTree_null_or_built (H : PriorityQueue) (text : CString) :
    BuildHuffmanTree H text = .null ∨ Built (BuildHuffmanTree H text) := by
  by_cases h : 2 ≤ (characters text).length
  · exact Or.inr (BuildHuffmanTree_built H text h).1
  · exact Or.inl (BuildHuffmanTree_null H text (by omega))

/-- C2. Prefix-free: for every text and every priority queue, in the lookup table that
`CreateLookupTable` derives, starting from the empty code and the empty table, from
`BuildHuffmanTree(text)`, the codes of two distinct characters with an entry are not
prefixes of one another. -/
theorem lookup_table_prefix_free (H : PriorityQueue) (text : CString) (c1 c2 : CChar)
    (code1 code2 : CString) (hne : c1 ≠ c2)
    (h1 : CreateLookupTable (BuildHuffmanTree H text) (fun _ => none) [] c1 = some code1)
    (h2 : CreateLookupTable (BuildHuffmanTree H text) (fun _ => none) [] c2 = some code2) :
    ¬ code1 <+: code2 ∧ ¬ code2 <+: code1 := by
  have m1 := mem_codes_of_lookup _ c1 code1 h1
  have m2 := mem_codes_of_lookup _ c2 code2 h2
  rcases BuildHuffmanTree_null_or_built H text with h | h
  · rw [h] at m1; simp [codes] at m1
  · have hp := codes_pairwise h []
    have hsymm : Symmetric (fun a b : CChar × CString => ¬ a.2 <+: b.2 ∧ ¬ b.2 <+: a.2) :=
      fun a b hab => ⟨hab.2, hab.1⟩
    exact hp.forall hsymm m1 m2 (fun he => hne (congrArg Prod.fst he))

/-! ## The trees a heap can lead to -/

theorem mem_minima (F : List HuffmanTreeNode) (x : HuffmanTreeNode) (hx : x ∈ F)
    (hmin : ∀ z ∈ F, x.frequency ≤ z.frequency) : x ∈ minima F := by
  unfold minima
  rw [List.mem_filter]
  refine ⟨hx, ?_⟩
  rw [List.all_eq_true]
  intro z hz
  exact decide_eq_true (hmin z hz)

/-- The root the merge loop returns is one of the enumerated outcomes, whatever the
priority queue. -/
theorem mergeLoop_mem_outcomes (H : PriorityQueue) :
    ∀ (fuel : Nat) (F : List HuffmanTreeNode) (q : H.Q) (root : HuffmanTreeNode),
      H.elems q = (F : Multiset HuffmanTreeNode) → F.length ≤ fuel + 1 →
      (F.length ≤ 1 → F = [root]) → mergeLoop H q root ∈ outcomes fuel F := by
  intro fuel
  induction fuel with
  | zero =>
    intro F q root hF hlen hroot
    have h1 : F.length ≤ 1 := by omega
    rw [mergeLoop_done H q root (by rw [H.size_eq, hF]; simpa using h1)]
    simp [outcomes, hroot h1]
  | succ fuel ih =>
    intro F q root hF hlen hroot
    unfold outcomes
    by_cases h1 : F.length ≤ 1
    · rw [mergeLoop_done H q root (by rw [H.size_eq, hF]; simpa using h1)]
      simp [h1, hroot h1]
    · rw [if_neg h1]
      have hsize : 1 < H.size q := by rw [H.size_eq, hF]; simp; omega
      obtain ⟨hex, helems, hc⟩ := extracted_of_size H q hsize
      rw [mergeLoop_step H q root hsize]
      rw [hF] at hex helems hc
      have hx : H.top q ∈ F := by simpa using hex.mem_left
      have hy : H.top (H.pop q) ∈ F.erase (H.top q) := by simpa using hex.mem_right
      rw [List.mem_flatMap]
      refine ⟨H.top q, mem_minima F _ hx (fun z hz => hex.min_left z (by simpa using hz)), ?_⟩
      rw [List.mem_flatMap]
      refine ⟨H.top (H.pop q),
        mem_minima _ _ hy (fun z hz => hex.min_right z (by simpa using hz)), ?_⟩
      have hcoe : mergeStep (F : Multiset HuffmanTreeNode) (H.top q) (H.top (H.pop q)) =
          ((newInternal (H.top q) (H.top (H.pop q)) ::
            (F.erase (H.top q)).erase (H.top (H.pop q)) : List HuffmanTreeNode) :
            Multiset HuffmanTreeNode) := by
        unfold mergeStep
        simp
      apply ih
      · rw [helems, hcoe]
      · rw [hcoe] at hc
        simp only [Multiset.coe_card] at hc
        omega
      · intro hle
        simp only [List.length_cons] at hle
        have : ((F.erase (H.top q)).erase (H.top (H.pop q))).length = 0 := by omega
        rw [List.length_eq_zero] at this
        rw [this]

/-- The tree `BuildHuffmanTree` returns for a text with two distinct characters or more is
one of the outcomes of the heap of its leaves. -/
theorem BuildHuffmanTree_mem_outcomes (H : PriorityQueue) (text : CString)
    (h : 2 ≤ (characters text).length) :
    BuildHuffmanTree H text ∈
      outcomes (characters text).length
        ((characters text).map (leafOf (CreateFrequencyTable text (fun _ => none)))) := by
  unfold BuildHuffmanTree
  apply mergeLoop_mem_outcomes
  · rw [elems_pushLeaves]
  · simp
  · intro hle
    simp at hle
    omega

/-! ## The concrete scenario -/

/-- Whatever the priority queue, the tree built for `"aaab"` is the tree of the scenario. -/
theorem BuildHuffmanTree_aaab (H : PriorityQueue) : BuildHuffmanTree H text_aaab = tree_aaab := by
  have h := BuildHuffmanTree_mem_outcomes H text_aaab (by decide)
  have e : outcomes (characters text_aaab).length
      ((characters text_aaab).map (leafOf (CreateFrequencyTable text_aaab (fun _ => none)))) =
      [tree_aaab] := by decide
  rw [e] at h
  simpa using h

/-- C6. Concrete scenario: for the text `"aaab"` and every priority queue,
`BuildHuffmanTree` returns a root of weight 4 whose left child is the leaf `b` of weight 1
and whose right child is the leaf `a` of weight 3; the lookup table is exactly
`{b: "0", a: "1"}`; `Encode("aaab")` is `"1110"`; and `Decode("1110", root)` is `"aaab"`. -/
theorem scenario_aaab (H : PriorityQueue) :
    BuildHuffmanTree H text_aaab =
        .node (CChar.ofInt (-1)) 4
          (.node (CChar.ofInt 98) 1 .null .null)
          (.node (CChar.ofInt 97) 3 .null .null) ∧
      CreateLookupTable (BuildHuffmanTree H text_aaab) (fun _ => none) [] =
        (fun c => if c = CChar.ofInt 98 then some [bit0]
          else if c = CChar.ofInt 97 then some [bit1] else none) ∧
      Encode H text_aaab = [bit1, bit1, bit1, bit0] ∧
      Decode [bit1, bit1, bit1, bit0] (BuildHuffmanTree H text_aaab) = some text_aaab := by
  have htbl : CreateLookupTable tree_aaab (fun _ => none) [] =
      (fun c => if c = CChar.ofInt 98 then some [bit0]
        else if c = CChar.ofInt 97 then some [bit1] else none) := by
    funext c
    by_cases hb : c = CChar.ofInt 98
    · subst hb; decide
    · by_cases ha : c = CChar.ofInt 97
      · subst ha; decide
      · rw [CreateLookupTable_eq_foldl,
          show codes tree_aaab [] = [(CChar.ofInt 98, [bit0]), (CChar.ofInt 97, [bit1])] from by
            decide]
        simp [writeCode, Function.update, hb, ha]
  refine ⟨BuildHuffmanTree_aaab H, ?_, ?_, ?_⟩
  · rw [BuildHuffmanTree_aaab, htbl]
  · unfold Encode lookupTableOf
    rw [BuildHuffmanTree_aaab, htbl]
    decide
  · rw [BuildHuffmanTree_aaab]
    decide

/-! ## Frequencies -/

/-- C9, as amended. Frequency table: for every text in which no character occurs `2 ^ 32`
times or more, `CreateFrequencyTable` called with an initially empty table yields a table
whose keys are exactly the characters of the text, each mapped to the number of times it
occurs in the text, which is at least 1. -/
theorem frequency_table_counts (text : CString)
    (hcount : ∀ c, text.count c < UNSIGNED_MOD) (c : CChar) :
    (c ∈ text ↔ ∃ n, CreateFrequencyTable text (fun _ => none) c = some n) ∧
      (c ∈ text →
        CreateFrequencyTable text (fun _ => none) c = some (text.count c) ∧
          1 ≤ text.count c) := by
  rw [CreateFrequencyTable_empty]
  by_cases h : c ∈ text
  · have hpos : 0 < text.count c := List.count_pos_iff.2 h
    have hne : text.count c ≠ 0 := by omega
    simp only [hne, if_false, Nat.mod_eq_of_lt (hcount c), h, true_iff, true_implies]
    exact ⟨⟨_, rfl⟩, trivial, hpos⟩
  · have h0 : text.count c = 0 := List.count_eq_zero.2 h
    simp [h0, h]

/-- The witness of `frequency_table_counts`: the text `"aaab"` and the character `'a'`. -/
theorem frequency_table_counts_witness :
    (∀ c, text_aaab.count c < UNSIGNED_MOD) ∧
      CreateFrequencyTable text_aaab (fun _ => none) (CChar.ofInt 97) = some 3 :=
  have h : ∀ c, text_aaab.count c < UNSIGNED_MOD := fun c =>
    lt_of_le_of_lt (List.count_le_length c text_aaab)
      (show text_aaab.length < UNSIGNED_MOD from by decide)
  ⟨h, ((frequency_table_counts text_aaab h (CChar.ofInt 97)).2 (by decide)).1⟩

/-- C9, the counterexample. In the text of `2 ^ 32` copies of `'a'` the character occurs
`2 ^ 32` times, and the table maps it to `0`: the `unsigned` count has wrapped. -/
theorem frequency_table_wraps :
    text_wrap.count (CChar.ofInt 97) = 2 ^ 32 ∧
      CreateFrequencyTable text_wrap (fun _ => none) (CChar.ofInt 97) = some 0 := by
  have hc : text_wrap.count (CChar.ofInt 97) = 2 ^ 32 := by
    unfold text_wrap; exact List.count_replicate_self _ _
  refine ⟨hc, ?_⟩
  rw [CreateFrequencyTable_empty, hc]
  simp [UNSIGNED_MOD]

/-! ## The weight invariant -/

theorem initialLeaves_eq (text : CString) :
    initialLeaves text = (characters text).map (fun c => (c, text.count c % UNSIGNED_MOD)) := by
  unfold initialLeaves
  apply List.map_congr_left
  intro c hc
  have hmem := (mem_characters text c).1 hc
  have hne : text.count c ≠ 0 := by
    have := List.count_pos_iff.2 hmem
    omega
  rw [CreateFrequencyTable_empty]
  simp [hne]

/-- The occurrence counts of the distinct characters add up to the length of the text. -/
theorem sum_count_characters (text : CString) :
    ((characters text).map (fun c => text.count c)).sum = text.length := by
  have hperm : (characters text).Perm text.dedup := by
    rw [List.perm_ext_iff_of_nodup (characters_nodup text) (List.nodup_dedup text)]
    intro c
    rw [mem_characters, List.mem_dedup]
  rw [(hperm.map _).sum_eq]
  exact List.sum_map_count_dedup_eq_length text

theorem weight_newLeaf (c : CChar) (f : Nat) : weight (newLeaf c f) = f := by
  simp [weight, leaves_newLeaf]

theorem weight_newInternal {l r : HuffmanTreeNode} (hl : Built l) :
    weight (newInternal l r) = weight l + weight r := by
  simp [weight, leaves_newInternal hl]

theorem frequency_newInternal (l r : HuffmanTreeNode) :
    (newInternal l r).frequency = (l.frequency + r.frequency) % UNSIGNED_MOD := rfl

/-- In a constructed tree every node with a child stores the sum of the frequencies of
its children modulo `2 ^ 32`. -/
theorem Built.frequency_mod {t : HuffmanTreeNode} (h : Built t) :
    ∀ c f left right, HuffmanTreeNode.node c f left right ∈ subtrees t →
      (left ≠ .null ∨ right ≠ .null) →
      f = (left.frequency + right.frequency) % UNSIGNED_MOD := by
  intro c f left right hmem hchild
  have hb := h.of_mem_subtrees _ hmem
  cases hb with
  | leaf c f => simp at hchild
  | internal l r _ _ => rfl

/-- A constructed tree whose leaf frequencies add up to less than `2 ^ 32` stores that
sum at its root and meets the weight invariant. -/
theorem Built.weight_exact {t : HuffmanTreeNode} (h : Built t) :
    weight t < UNSIGNED_MOD → t.frequency = weight t ∧ WeightInvariant t := by
  induction h with
  | leaf c f =>
    intro _
    refine ⟨by rw [weight_newLeaf]; rfl, ?_⟩
    intro c' f' l r hmem hchild
    simp [newLeaf, subtrees] at hmem
    obtain ⟨_, _, rfl, rfl⟩ := hmem
    simp at hchild
  | internal l r hl hr ihl ihr =>
    intro hlt
    rw [weight_newInternal hl] at hlt ⊢
    obtain ⟨fl, wl⟩ := ihl (by omega)
    obtain ⟨fr, wr⟩ := ihr (by omega)
    have hfreq : (newInternal l r).frequency = weight l + weight r := by
      rw [frequency_newInternal, fl, fr, Nat.mod_eq_of_lt hlt]
    refine ⟨hfreq, ?_⟩
    intro c' f' l' r' hmem hchild
    rw [subtrees_newInternal] at hmem
    rcases List.mem_cons.1 hmem with heq | hmem
    · unfold newInternal at heq
      injection heq with h1 h2 h3 h4
      subst h3 h4
      rw [h2, fl, fr, Nat.mod_eq_of_lt hlt]
    · rcases List.mem_append.1 hmem with hmem | hmem
      · exact wl c' f' l' r' hmem hchild
      · exact wr c' f' l' r' hmem hchild

/-- Under the weight invariant a constructed tree stores the sum of its leaf
frequencies. -/
theorem Built.frequency_eq_weight {t : HuffmanTreeNode} (h : Built t) :
    WeightInvariant t → t.frequency = weight t := by
  induction h with
  | leaf c f => intro _; rw [weight_newLeaf]; rfl
  | internal l r hl hr ihl ihr =>
    intro hw
    have hsub : ∀ n, n ∈ subtrees l ∨ n ∈ subtrees r → n ∈ subtrees (newInternal l r) := by
      intro n hn
      rw [subtrees_newInternal]
      exact List.mem_cons_of_mem _ (List.mem_append.2 hn)
    have el := ihl (fun c f a b hm hc => hw c f a b (hsub _ (Or.inl hm)) hc)
    have er := ihr (fun c f a b hm hc => hw c f a b (hsub _ (Or.inr hm)) hc)
    have := hw (CChar.ofInt (-1)) _ l r
      (by rw [subtrees_newInternal]; exact List.mem_cons_self _ _) (Or.inl hl.ne_null)
    rw [weight_newInternal hl, ← el, ← er]
    unfold newInternal HuffmanTreeNode.frequency
    exact this

/-- The weight of the tree built for a text with two distinct characters or more: the
sum over the distinct characters of the occurrence count modulo `2 ^ 32`. -/
theorem weight_BuildHuffmanTree (H : PriorityQueue) (text : CString)
    (h : 2 ≤ (characters text).length) :
    weight (BuildHuffmanTree H text) =
      ((characters text).map (fun c => text.count c % UNSIGNED_MOD)).sum := by
  unfold weight
  rw [(((BuildHuffmanTree_built H text h).2).map _).sum_eq, initialLeaves_eq, List.map_map]
  rfl

/-- A constructed tree with two leaves or more is an internal node. -/
theorem Built.internal_of_two_leaves {t : HuffmanTreeNode} (h : Built t)
    (hlen : 2 ≤ (leaves t).length) :
    ∃ l r, Built l ∧ Built r ∧ t = newInternal l r := by
  cases h with
  | leaf c f => rw [leaves_newLeaf] at hlen; simp at hlen
  | internal l r hl hr => exact ⟨l, r, hl, hr, rfl⟩

/-- The tree built for a text with two distinct characters or more is an internal node
over two constructed trees. -/
theorem BuildHuffmanTree_internal (H : PriorityQueue) (text : CString)
    (h : 2 ≤ (characters text).length) :
    ∃ l r, Built l ∧ Built r ∧ BuildHuffmanTree H text = newInternal l r := by
  apply (BuildHuffmanTree_built H text h).1.internal_of_two_leaves
  rw [(BuildHuffmanTree_built H text h).2.length_eq]
  unfold initialLeaves
  rw [List.length_map]
  exact h

theorem WeightInvariant_null : WeightInvariant .null := by
  intro c f l r hmem
  simp [subtrees] at hmem

/-- C10, as amended. Weight invariant: for every text of fewer than `2 ^ 32` characters
and every priority queue, every node with children of the tree returned by
`BuildHuffmanTree` has a frequency equal to the sum of the frequencies of its left and
right children. -/
theorem weight_invariant (H : PriorityQueue) (text : CString)
    (hlen : text.length < UNSIGNED_MOD) : WeightInvariant (BuildHuffmanTree H text) := by
  by_cases h : 2 ≤ (characters text).length
  · apply ((BuildHuffmanTree_built H text h).1.weight_exact ?_).2
    rw [weight_BuildHuffmanTree H text h]
    refine lt_of_le_of_lt ?_ hlen
    rw [← sum_count_characters text]
    apply List.sum_le_sum
    intro c _
    exact Nat.mod_le _ _
  · rw [BuildHuffmanTree_null H text (by omega)]
    exact WeightInvariant_null

/-- The witness of `weight_invariant`: the text `"aaab"`, whose root stores `4 = 1 + 3`. -/
theorem weight_invariant_witness :
    text_aaab.length < UNSIGNED_MOD ∧ WeightInvariant (BuildHuffmanTree listQueue text_aaab) :=
  ⟨by decide, weight_invariant listQueue text_aaab (by decide)⟩

/-- The set of characters of a run of `a` followed by a run of `b`. -/
theorem characters_two_runs (n m : Nat) (a b : CChar) (hab : a < b) (hn : 0 < n)
    (hm : 0 < m) : characters (List.replicate n a ++ List.replicate m b) = [a, b] := by
  apply characters_eq_of_sorted
  · simp [hab]
  · intro c
    rw [List.mem_append, List.mem_replicate, List.mem_replicate]
    simp only [List.mem_cons, List.mem_singleton, List.not_mem_nil, or_false]
    constructor
    · rintro (h | h)
      · exact Or.inl ⟨by omega, h⟩
      · exact Or.inr ⟨by omega, h⟩
    · rintro (⟨_, h⟩ | ⟨_, h⟩)
      · exact Or.inl h
      · exact Or.inr h

theorem count_two_runs (n m : Nat) (a b : CChar) (hab : a ≠ b) :
    (List.replicate n a ++ List.replicate m b).count a = n ∧
      (List.replicate n a ++ List.replicate m b).count b = m := by
  rw [List.count_append, List.count_append, List.count_replicate_self,
    List.count_replicate_self, List.count_replicate, List.count_replicate]
  have h1 : (b == a) = false := by simpa using fun h => hab h.symm
  have h2 : (a == b) = false := by simpa using hab
  simp [h1, h2]

theorem characters_text_halves :
    characters text_halves = [CChar.ofInt 97, CChar.ofInt 98] := by
  unfold text_halves
  exact characters_two_runs _ _ _ _ (by decide) (by norm_num) (by norm_num)

theorem count_text_halves :
    text_halves.count (CChar.ofInt 97) = 2 ^ 31 ∧ text_halves.count (CChar.ofInt 98) = 2 ^ 31 := by
  unfold text_halves
  exact count_two_runs _ _ _ _ (by decide)

/-- C10, the counterexample. For the text of `2 ^ 31` copies of `'a'` followed by
`2 ^ 31` copies of `'b'` no priority queue yields a tree that meets the weight invariant:
the two leaf frequencies add up to `2 ^ 32`, which the `unsigned` field of the root
cannot hold. -/
theorem weight_invariant_wraps :
    ¬ ∃ H : PriorityQueue, WeightInvariant (BuildHuffmanTree H text_halves) := by
  rintro ⟨H, hw⟩
  have h2 : 2 ≤ (characters text_halves).length := by rw [characters_text_halves]; simp
  have hb := (BuildHuffmanTree_built H text_halves h2).1
  have hfreq := hb.frequency_eq_weight hw
  have hweight : weight (BuildHuffmanTree H text_halves) = UNSIGNED_MOD := by
    rw [weight_BuildHuffmanTree H text_halves h2, characters_text_halves]
    simp only [List.map_cons, List.map_nil, List.sum_cons, List.sum_nil, count_text_halves.1,
      count_text_halves.2]
    unfold UNSIGNED_MOD
    norm_num
  have hlt : (BuildHuffmanTree H text_halves).frequency < UNSIGNED_MOD := by
    obtain ⟨l, r, _, _, e⟩ := BuildHuffmanTree_internal H text_halves h2
    rw [e, frequency_newInternal]
    exact Nat.mod_lt _ UNSIGNED_MOD_pos
  omega

/-! ## Decoding the codes of the table -/

theorem DecodeLoop_cons (root : HuffmanTreeNode) (b : CChar) (rest : CString)
    (cur : HuffmanTreeNode) (acc : CString) :
    DecodeLoop root (b :: rest) cur acc =
      (moveCursor b cur).bind (fun t => arrive root t rest acc) := by
  unfold DecodeLoop arrive
  cases moveCursor b cur with
  | none => rfl
  | some t => cases t <;> rfl

theorem arrive_newInternal (root l r : HuffmanTreeNode) (rest acc : CString) :
    arrive root (newInternal l r) rest acc = DecodeLoop root rest (newInternal l r) acc := by
  simp [arrive, newInternal, sentinel_not_leaf]

theorem moveCursor_bit0 (l r : HuffmanTreeNode) : moveCursor bit0 (newInternal l r) = some l := by
  simp [moveCursor, newInternal]

theorem moveCursor_bit1 (l r : HuffmanTreeNode) : moveCursor bit1 (newInternal l r) = some r := by
  simp [moveCursor, newInternal, bit0_ne_bit1.symm]

/-- Once the cursor is on a constructed tree `t` reached with the code `p`, the rest of a
code written below `t` leads the loop to emit its character and to return to the root. -/
theorem arrive_code (root : HuffmanTreeNode) {t : HuffmanTreeNode} (h : Built t) :
    ∀ (p : CString) (c : CChar) (s : CString), (c, s) ∈ codes t p →
      ∃ s', s = p ++ s' ∧ ∀ rest acc,
        arrive root t (s' ++ rest) acc = DecodeLoop root rest root (acc ++ [c]) := by
  induction h with
  | leaf c' f =>
    intro p c s hmem
    rw [codes_newLeaf] at hmem
    split at hmem
    · rename_i hpos
      simp only [List.mem_singleton, Prod.mk.injEq] at hmem
      obtain ⟨rfl, rfl⟩ := hmem
      refine ⟨[], by simp, fun rest acc => ?_⟩
      simp [arrive, newLeaf, hpos]
    · simp at hmem
  | internal l r _ _ ihl ihr =>
    intro p c s hmem
    rw [codes_newInternal, List.mem_append] at hmem
    rcases hmem with hmem | hmem
    · obtain ⟨s', hs, hdec⟩ := ihl _ c s hmem
      refine ⟨bit0 :: s', by simp [hs], fun rest acc => ?_⟩
      rw [arrive_newInternal, List.cons_append, DecodeLoop_cons, moveCursor_bit0]
      exact hdec rest acc
    · obtain ⟨s', hs, hdec⟩ := ihr _ c s hmem
      refine ⟨bit1 :: s', by simp [hs], fun rest acc => ?_⟩
      rw [arrive_newInternal, List.cons_append, DecodeLoop_cons, moveCursor_bit1]
      exact hdec rest acc

/-- From the root of a constructed internal node, a code of the walk makes the loop emit
its character and return to the root. -/
theorem DecodeLoop_code {l r : HuffmanTreeNode} (hl : Built l) (hr : Built r) (c : CChar)
    (s : CString) (hmem : (c, s) ∈ codes (newInternal l r) []) (rest acc : CString) :
    DecodeLoop (newInternal l r) (s ++ rest) (newInternal l r) acc =
      DecodeLoop (newInternal l r) rest (newInternal l r) (acc ++ [c]) := by
  obtain ⟨s', hs, hdec⟩ := arrive_code (newInternal l r) (Built.internal l r hl hr) [] c s hmem
  rw [List.nil_append] at hs
  subst hs
  rw [← arrive_newInternal, hdec]

/-! ## The keys of the table -/

theorem keys_codes {t : HuffmanTreeNode} (h : Built t) :
    ∀ p : CString, (codes t p).map Prod.fst = leafTested ((leaves t).map Prod.fst) := by
  induction h with
  | leaf c f =>
    intro p
    rw [codes_newLeaf, leaves_newLeaf]
    unfold leafTested
    by_cases hc : (-1 : Int) < c.val <;> simp [hc]
  | internal l r hl _ ihl ihr =>
    intro p
    rw [codes_newInternal, leaves_newInternal hl, List.map_append, List.map_append, ihl, ihr]
    unfold leafTested
    rw [List.filter_append]

theorem foldl_writeCode_of_not_mem (l : List (CChar × CString)) :
    ∀ (tbl : LookupTable) (c : CChar), c ∉ l.map Prod.fst →
      (l.foldl writeCode tbl) c = tbl c := by
  induction l with
  | nil => intro tbl c _; rfl
  | cons e rest ih =>
    intro tbl c hc
    simp only [List.map_cons, List.mem_cons, not_or] at hc
    rw [List.foldl_cons, ih _ c hc.2]
    unfold writeCode
    exact Function.update_noteq hc.1 _ _

theorem foldl_writeCode_of_mem (l : List (CChar × CString)) :
    ∀ (tbl : LookupTable) (c : CChar) (v : CString), (l.map Prod.fst).Nodup → (c, v) ∈ l →
      (l.foldl writeCode tbl) c = some v := by
  induction l with
  | nil => intro tbl c v _ h; simp at h
  | cons e rest ih =>
    intro tbl c v hnd hmem
    rw [List.map_cons, List.nodup_cons] at hnd
    rw [List.foldl_cons]
    rcases List.mem_cons.1 hmem with rfl | hmem
    · rw [foldl_writeCode_of_not_mem rest _ _ hnd.1]
      unfold writeCode
      exact Function.update_same _ _ _
    · exact ih _ c v hnd.2 hmem

/-- The table derived from the tree of a text with two distinct characters or more: a
character of the text that passes the leaf test is mapped to a code written by the walk,
and a character that does not has no entry. -/
theorem lookupTableOf_spec (H : PriorityQueue) (text : CString)
    (h : 2 ≤ (characters text).length) (c : CChar) (hc : c ∈ text) :
    if (-1 : Int) < c.val then
      ∃ s, lookupTableOf H text c = some s ∧ (c, s) ∈ codes (BuildHuffmanTree H text) []
    else lookupTableOf H text c = none := by
  obtain ⟨hb, hperm⟩ := BuildHuffmanTree_built H text h
  have hkeys := keys_codes hb []
  have hchars : ((leaves (BuildHuffmanTree H text)).map Prod.fst).Perm (characters text) := by
    have := hperm.map Prod.fst
    unfold initialLeaves at this
    rw [List.map_map] at this
    simpa [Function.comp_def] using this
  have hnd : ((codes (BuildHuffmanTree H text) []).map Prod.fst).Nodup := by
    rw [hkeys]
    exact ((hchars.nodup_iff).2 (characters_nodup text)).filter _
  unfold lookupTableOf
  rw [CreateLookupTable_eq_foldl]
  split
  · rename_i hpos
    have hmem : c ∈ (codes (BuildHuffmanTree H text) []).map Prod.fst := by
      rw [hkeys]
      unfold leafTested
      rw [List.mem_filter]
      exact ⟨hchars.mem_iff.2 ((mem_characters text c).2 hc), by simpa using hpos⟩
    obtain ⟨⟨c', s⟩, hcs, rfl⟩ := List.mem_map.1 hmem
    exact ⟨s, foldl_writeCode_of_mem _ _ _ s hnd hcs, hcs⟩
  · rename_i hneg
    rw [foldl_writeCode_of_not_mem]
    rw [hkeys]
    unfold leafTested
    rw [List.mem_filter]
    simp [hneg]

/-- Decoding the encoding, under the table of a text, of a message written in the
characters of that text: the loop emits the characters of the message that pass the leaf
test, in order, and is back at the root. -/
theorem DecodeLoop_encodeWith (H : PriorityQueue) (text : CString)
    (h : 2 ≤ (characters text).length) :
    ∀ (msg : CString), (∀ c ∈ msg, c ∈ text) → ∀ (rest acc : CString),
      DecodeLoop (BuildHuffmanTree H text) (encodeWith (lookupTableOf H text) msg ++ rest)
          (BuildHuffmanTree H text) acc =
        DecodeLoop (BuildHuffmanTree H text) rest (BuildHuffmanTree H text)
          (acc ++ leafTested msg) := by
  obtain ⟨l, r, hl, hr, hroot⟩ := BuildHuffmanTree_internal H text h
  intro msg
  induction msg with
  | nil => intro _ rest acc; simp [encodeWith, leafTested]
  | cons c msg ih =>
    intro hmsg rest acc
    have hspec := lookupTableOf_spec H text h c (hmsg c (List.mem_cons_self _ _))
    have ih' := ih (fun d hd => hmsg d (List.mem_cons_of_mem _ hd))
    unfold encodeWith lookupCode
    split at hspec
    · rename_i hpos
      obtain ⟨s, hs, hmem⟩ := hspec
      rw [hs, Option.getD_some, List.append_assoc]
      rw [hroot] at hmem ⊢
      rw [DecodeLoop_code hl hr c s hmem]
      rw [← hroot, ih']
      simp [leafTested, hpos]
    · rename_i hneg
      rw [hspec, Option.getD_none, List.nil_append, ih']
      simp [leafTested, hneg]

/-! ## Round trip -/

/-- Decoding the encoding of a text with two distinct characters or more yields the
characters of the text that pass the leaf test. -/
theorem Decode_Encode (H : PriorityQueue) (text : CString)
    (h : 2 ≤ (characters text).length) :
    Decode (Encode H text) (BuildHuffmanTree H text) = some (leafTested text) := by
  unfold Decode Encode
  have := DecodeLoop_encodeWith H text h text (fun _ hc => hc) [] []
  rw [List.append_nil] at this
  rw [this]
  simp [DecodeLoop]

theorem leafTested_eq_self (text : CString) : leafTested text = text ↔ NonNegative text := by
  unfold leafTested NonNegative
  rw [List.filter_eq_self]
  simp

/-- C1, as amended. Round trip: for every text that contains at least two distinct
characters and every priority queue, `Decode(Encode(text), BuildHuffmanTree(text))` is the
text with the characters of negative `char` value removed; it is the text itself exactly
when no character of the text has a negative value. -/
theorem round_trip (H : PriorityQueue) (text : CString) (h : TwoDistinct text) :
    Decode (Encode H text) (BuildHuffmanTree H text) = some (leafTested text) ∧
      (Decode (Encode H text) (BuildHuffmanTree H text) = some text ↔ NonNegative text) := by
  have hd := Decode_Encode H text ((twoDistinct_iff text).1 h)
  refine ⟨hd, ?_⟩
  rw [hd, ← leafTested_eq_self]
  constructor
  · intro he; exact Option.some.inj he
  · intro he; rw [he]

/-- The witness of `round_trip`: the text `"aaab"`. -/
theorem round_trip_witness :
    TwoDistinct text_aaab ∧
      Decode (Encode listQueue text_aaab) (BuildHuffmanTree listQueue text_aaab) =
        some text_aaab :=
  have h : TwoDistinct text_aaab :=
    ⟨CChar.ofInt 97, by decide, CChar.ofInt 98, by decide, by decide⟩
  ⟨h, (round_trip listQueue text_aaab h).2.2 (by decide)⟩

/-- C1, the counterexample. The text made of the two bytes of `é` has two distinct
characters, and with no priority queue does decoding its encoding give the text back:
both characters are negative and fail the leaf test, so nothing is encoded. -/
theorem round_trip_fails_on_negative :
    TwoDistinct text_utf8 ∧
      ¬ ∃ H : PriorityQueue,
        Decode (Encode H text_utf8) (BuildHuffmanTree H text_utf8) = some text_utf8 := by
  refine ⟨⟨CChar.ofInt (-61), by decide, CChar.ofInt (-87), by decide, by decide⟩, ?_⟩
  rintro ⟨H, h⟩
  rw [Decode_Encode H text_utf8 (by decide)] at h
  exact absurd h (by decide)

/-! ## Degenerate inputs -/

theorem encodeWith_empty_table (text : CString) : encodeWith (fun _ => none) text = [] := by
  induction text with
  | nil => rfl
  | cons c rest ih => simp [encodeWith, lookupCode, ih]

/-- With fewer than two distinct characters the encoding is the empty string. -/
theorem Encode_of_null (H : PriorityQueue) (text : CString)
    (h : (characters text).length ≤ 1) : Encode H text = [] := by
  unfold Encode lookupTableOf
  rw [BuildHuffmanTree_null H text h]
  exact encodeWith_empty_table text

theorem characters_replicate (k : Nat) (c : CChar) (hk : 1 ≤ k) :
    characters (List.replicate k c) = [c] := by
  apply characters_eq_of_sorted
  · simp
  · intro d
    rw [List.mem_replicate, List.mem_singleton]
    constructor
    · intro h; exact ⟨by omega, h⟩
    · intro h; exact h.2

/-- C3, as amended. Degenerate alphabet: for every text consisting of one single
character repeated `k >= 1` times and every priority queue, `Encode(text)` is the empty
string and `Decode(Encode(text), BuildHuffmanTree(text))` is the empty string, not the
text. -/
theorem single_character_round_trip (H : PriorityQueue) (c : CChar) (k : Nat) (hk : 1 ≤ k) :
    Encode H (List.replicate k c) = [] ∧
      Decode (Encode H (List.replicate k c)) (BuildHuffmanTree H (List.replicate k c)) =
        some [] ∧
      Decode (Encode H (List.replicate k c)) (BuildHuffmanTree H (List.replicate k c)) ≠
        some (List.replicate k c) := by
  have hc : (characters (List.replicate k c)).length ≤ 1 := by
    rw [characters_replicate k c hk]; simp
  have he := Encode_of_null H _ hc
  rw [he]
  refine ⟨rfl, rfl, ?_⟩
  intro h
  have h1 : ([] : CString) = List.replicate k c := Option.some.inj h
  have h2 := congrArg List.length h1
  simp at h2
  omega

/-- The witness of `single_character_round_trip`: the text `"aaa"`. -/
theorem single_character_round_trip_witness :
    1 ≤ 3 ∧ Encode listQueue (List.replicate 3 (CChar.ofInt 97)) = [] :=
  ⟨by decide, (single_character_round_trip listQueue (CChar.ofInt 97) 3 (by decide)).1⟩

/-- C3, the counterexample. With no priority queue does decoding the encoding of `"aaa"`
give `"aaa"` back. -/
theorem single_character_round_trip_fails :
    ¬ ∃ H : PriorityQueue,
      Decode (Encode H text_aaa) (BuildHuffmanTree H text_aaa) = some text_aaa := by
  rintro ⟨H, h⟩
  rw [Encode_of_null H text_aaa (by decide)] at h
  have h0 : Decode [] (BuildHuffmanTree H text_aaa) = some [] := rfl
  rw [h0] at h
  exact absurd h (by decide)

/-- C5, as amended. Empty input: for every priority queue, `BuildHuffmanTree` applied to
the empty text returns the null pointer `root` is initialised with and raises no error;
`Encode` of the empty text is the empty string and decoding it yields the empty string. -/
theorem empty_text_returns_null (H : PriorityQueue) :
    BuildHuffmanTree H [] = .null ∧ Encode H [] = [] ∧
      Decode (Encode H []) (BuildHuffmanTree H []) = some [] := by
  have hb := BuildHuffmanTree_null H [] (by decide)
  have he := Encode_of_null H [] (by decide)
  rw [hb, he]
  exact ⟨rfl, rfl, rfl⟩

/-- C5, the counterexample. On the empty text no priority queue makes `BuildHuffmanTree`
do anything but return the null pointer, and none makes the decoding of the encoding, the
one step of the program that can fail, fail: no error is surfaced to the caller. -/
theorem empty_text_no_error :
    ¬ ∃ H : PriorityQueue,
      BuildHuffmanTree H [] ≠ .null ∨ Decode (Encode H []) (BuildHuffmanTree H []) = none := by
  rintro ⟨H, h⟩
  have hb := BuildHuffmanTree_null H [] (by decide)
  have he := Encode_of_null H [] (by decide)
  rw [hb, he] at h
  rcases h with h | h
  · exact h rfl
  · exact absurd h (by decide)

/-! ## Truncated streams -/

/-- The witness of `lookup_table_prefix_free`: the codes `"1"` of `'a'` and `"0"` of `'b'`
in the table of `"aaab"`. -/
theorem lookup_table_prefix_free_witness :
    CChar.ofInt 97 ≠ CChar.ofInt 98 ∧
      CreateLookupTable (BuildHuffmanTree listQueue text_aaab) (fun _ => none) []
        (CChar.ofInt 97) = some [bit1] ∧
      CreateLookupTable (BuildHuffmanTree listQueue text_aaab) (fun _ => none) []
        (CChar.ofInt 98) = some [bit0] ∧
      (¬ [bit1] <+: [bit0] ∧ ¬ [bit0] <+: [bit1]) :=
  have h1 : CreateLookupTable (BuildHuffmanTree listQueue text_aaab) (fun _ => none) []
      (CChar.ofInt 97) = some [bit1] := by rw [BuildHuffmanTree_aaab]; decide
  have h2 : CreateLookupTable (BuildHuffmanTree listQueue text_aaab) (fun _ => none) []
      (CChar.ofInt 98) = some [bit0] := by rw [BuildHuffmanTree_aaab]; decide
  ⟨by decide, h1, h2,
    lookup_table_prefix_free listQueue text_aaab _ _ _ _ (by decide) h1 h2⟩

/-- Whatever the priority queue, the tree built for `"abbcccc"` is `tree_abbcccc`. -/
theorem BuildHuffmanTree_abbcccc (H : PriorityQueue) :
    BuildHuffmanTree H text_abbcccc = tree_abbcccc := by
  have h := BuildHuffmanTree_mem_outcomes H text_abbcccc (by decide)
  have e : outcomes (characters text_abbcccc).length
      ((characters text_abbcccc).map
        (leafOf (CreateFrequencyTable text_abbcccc (fun _ => none)))) =
      [tree_abbcccc] := by decide
  rw [e] at h
  simpa using h

/-- Once the cursor is on a constructed tree `t` reached with the code `q`, a proper
prefix of the rest of a code written below `t` leaves the cursor on a node of `t` as deep
as the prefix is long, and emits nothing. -/
theorem arrive_proper_prefix (root : HuffmanTreeNode) {t : HuffmanTreeNode} (h : Built t) :
    ∀ (q : CString) (c : CChar) (s p : CString), (c, s) ∈ codes t q →
      q ++ p <+: s → q ++ p ≠ s →
      ∃ cur, (subtrees cur).length + p.length ≤ (subtrees t).length ∧
        ∀ acc, arrive root t p acc = some (cur, acc) := by
  induction h with
  | leaf c' f =>
    intro q c s p hmem hpre hne
    rw [codes_newLeaf] at hmem
    split at hmem
    · simp only [List.mem_singleton, Prod.mk.injEq] at hmem
      obtain ⟨_, rfl⟩ := hmem
      exact absurd (hpre.eq_of_length_le (by simp)) hne
    · simp at hmem
  | internal l r _ _ ihl ihr =>
    intro q c s p hmem hpre hne
    cases p with
    | nil =>
      refine ⟨newInternal l r, by simp, fun acc => ?_⟩
      rw [arrive_newInternal]
      rfl
    | cons b p' =>
      rw [codes_newInternal, List.mem_append] at hmem
      have hsplit : q ++ b :: p' = (q ++ [b]) ++ p' := by simp
      rcases hmem with hmem | hmem
      · have hq := prefix_of_mem_codes l _ _ hmem
        have hb : b = bit0 := by
          have h1 : q ++ [b] <+: s := (List.prefix_append _ p').trans (hsplit ▸ hpre)
          have := List.prefix_of_prefix_length_le h1 hq (by simp)
          have h2 := List.IsPrefix.eq_of_length this (by simp)
          simpa using List.append_cancel_left h2
        subst hb
        obtain ⟨cur, hlen, hdec⟩ := ihl _ c s p' hmem (hsplit ▸ hpre) (hsplit ▸ hne)
        refine ⟨cur, ?_, fun acc => ?_⟩
        · rw [subtrees_newInternal]
          simp only [List.length_cons, List.length_append]
          omega
        · rw [arrive_newInternal, DecodeLoop_cons, moveCursor_bit0]
          exact hdec acc
      · have hq := prefix_of_mem_codes r _ _ hmem
        have hb : b = bit1 := by
          have h1 : q ++ [b] <+: s := (List.prefix_append _ p').trans (hsplit ▸ hpre)
          have := List.prefix_of_prefix_length_le h1 hq (by simp)
          have h2 := List.IsPrefix.eq_of_length this (by simp)
          simpa using List.append_cancel_left h2
        subst hb
        obtain ⟨cur, hlen, hdec⟩ := ihr _ c s p' hmem (hsplit ▸ hpre) (hsplit ▸ hne)
        refine ⟨cur, ?_, fun acc => ?_⟩
        · rw [subtrees_newInternal]
          simp only [List.length_cons, List.length_append]
          omega
        · rw [arrive_newInternal, DecodeLoop_cons, moveCursor_bit1]
          exact hdec acc

/-- C4, as amended. Truncation: for every text with at least two distinct characters,
every priority queue, every message written in the characters of the text and every
non-empty proper prefix `p` of a code of the lookup table, the encoding of the message
followed by `p` ends in the middle of a code (the cursor is off the root), and `Decode`
does not fail on it: it returns the decoded message and drops the partial code silently. -/
theorem truncated_stream_decodes (H : PriorityQueue) (text : CString) (h : TwoDistinct text)
    (msg : CString) (hmsg : ∀ c ∈ msg, c ∈ text) (c : CChar) (code p : CString)
    (hcode : lookupTableOf H text c = some code) (hp : p <+: code) (hne : p ≠ [])
    (hproper : p ≠ code) :
    EndsMidCode (BuildHuffmanTree H text) (encodeWith (lookupTableOf H text) msg ++ p) ∧
      Decode (encodeWith (lookupTableOf H text) msg ++ p) (BuildHuffmanTree H text) =
        some (leafTested msg) := by
  have h2 := (twoDistinct_iff text).1 h
  obtain ⟨l, r, hl, hr, hroot⟩ := BuildHuffmanTree_internal H text h2
  have hmem := mem_codes_of_lookup _ c code hcode
  have hloop := DecodeLoop_encodeWith H text h2 msg hmsg p []
  rw [List.nil_append] at hloop
  rw [hroot] at hmem
  obtain ⟨cur, hlen, hdec⟩ := arrive_proper_prefix (newInternal l r) (Built.internal l r hl hr)
    [] c code p hmem (by simpa using hp) (by simpa using hproper)
  have hfinal : DecodeLoop (BuildHuffmanTree H text)
      (encodeWith (lookupTableOf H text) msg ++ p) (BuildHuffmanTree H text) [] =
      some (cur, leafTested msg) := by
    rw [hloop, hroot, ← arrive_newInternal]
    exact hdec _
  refine ⟨⟨cur, leafTested msg, hfinal, ?_⟩, ?_⟩
  · intro he
    rw [he, hroot] at hlen
    have : 0 < p.length := List.length_pos.2 hne
    omega
  · unfold Decode
    rw [hfinal]
    rfl

/-- The witness of `truncated_stream_decodes`: in the table of `"abbcccc"` the code of
`'a'` is `"00"`; the stream `"1"` of the message `"c"` followed by `"0"` decodes to
`"c"`. -/
theorem truncated_stream_decodes_witness :
    TwoDistinct text_abbcccc ∧
      lookupTableOf listQueue text_abbcccc (CChar.ofInt 97) = some [bit0, bit0] ∧
      Decode (encodeWith (lookupTableOf listQueue text_abbcccc) [CChar.ofInt 99] ++ [bit0])
        (BuildHuffmanTree listQueue text_abbcccc) = some [CChar.ofInt 99] :=
  have h : TwoDistinct text_abbcccc :=
    ⟨CChar.ofInt 97, by decide, CChar.ofInt 98, by decide, by decide⟩
  have hcode : lookupTableOf listQueue text_abbcccc (CChar.ofInt 97) = some [bit0, bit0] := by
    unfold lookupTableOf; rw [BuildHuffmanTree_abbcccc]; decide
  ⟨h, hcode,
    (truncated_stream_decodes listQueue text_abbcccc h [CChar.ofInt 99] (by decide)
      (CChar.ofInt 97) [bit0, bit0] [bit0] hcode (by decide) (by decide) (by decide)).2⟩

/-- C4, the counterexample. For the text `"abbcccc"` and the stream `"0"`, which ends in
the middle of the codes `"00"` and `"01"`, no priority queue makes `Decode` fail: it
returns the empty string. -/
theorem truncation_not_detected :
    ¬ ∃ H : PriorityQueue,
      (EndsMidCode (BuildHuffmanTree H text_abbcccc) [bit0] →
        Decode [bit0] (BuildHuffmanTree H text_abbcccc) = none) := by
  rintro ⟨H, h⟩
  rw [BuildHuffmanTree_abbcccc] at h
  have hmid : EndsMidCode tree_abbcccc [bit0] :=
    ⟨newInternal (newLeaf (CChar.ofInt 97) 1) (newLeaf (CChar.ofInt 98) 2), [],
      by decide, by decide⟩
  exact absurd (h hmid) (by decide)

/-! ## The exchange argument on depth assignments -/

theorem kraftSum_cons (D d : Nat) (ds : Multiset Nat) :
    kraftSum D (d ::ₘ ds) = 2 ^ (D - d) + kraftSum D ds := by
  simp [kraftSum]

theorem assignmentCost_cons (p : Nat × Nat) (m : Multiset (Nat × Nat)) :
    assignmentCost (p ::ₘ m) = p.1 * p.2 + assignmentCost m := by
  simp [assignmentCost]

theorem exists_deepest (m : Multiset (Nat × Nat)) (h : m ≠ 0) :
    ∃ p ∈ m, ∀ q ∈ m, q.2 ≤ p.2 := by
  induction m using Multiset.induction_on with
  | empty => exact absurd rfl h
  | cons a s ih =>
    by_cases hs : s = 0
    · subst hs
      exact ⟨a, by simp, by simp⟩
    · obtain ⟨p, hp, hmax⟩ := ih hs
      by_cases hap : a.2 ≤ p.2
      · refine ⟨p, Multiset.mem_cons_of_mem hp, fun q hq => ?_⟩
        rcases Multiset.mem_cons.1 hq with rfl | hq
        · exact hap
        · exact hmax q hq
      · refine ⟨a, Multiset.mem_cons_self _ _, fun q hq => ?_⟩
        rcases Multiset.mem_cons.1 hq with rfl | hq
        · exact le_rfl
        · exact le_trans (hmax q hq) (by omega)

/-- The Kraft sum of depths all below `M` is a multiple of `2 ^ (D - M + 1)`. -/
theorem dvd_kraftSum (D M : Nat) (hM : M ≤ D) (ds : Multiset Nat) (h : ∀ d ∈ ds, d < M) :
    2 ^ (D - M + 1) ∣ kraftSum D ds := by
  unfold kraftSum
  apply Multiset.dvd_sum
  intro x hx
  obtain ⟨d, hd, rfl⟩ := Multiset.mem_map.1 hx
  exact pow_dvd_pow 2 (by have := h d hd; omega)

/-- Parity: when a single depth `M ≥ 1` stands above all the others, it can be lowered
to `M - 1` within the Kraft bound. -/
theorem kraftSum_lower (D M : Nat) (hM : M ≤ D) (hM1 : 1 ≤ M) (ds : Multiset Nat)
    (h : ∀ d ∈ ds, d < M) (hk : kraftSum D (M ::ₘ ds) ≤ 2 ^ D) :
    kraftSum D ((M - 1) ::ₘ ds) ≤ 2 ^ D := by
  rw [kraftSum_cons] at hk ⊢
  obtain ⟨k, hk1⟩ := dvd_kraftSum D M hM ds h
  obtain ⟨K, hK⟩ : 2 ^ (D - M + 1) ∣ 2 ^ D := pow_dvd_pow 2 (by omega)
  have e1 : D - (M - 1) = D - M + 1 := by omega
  have e2 : 2 ^ (D - M + 1) = 2 * 2 ^ (D - M) := by rw [pow_succ]; ring
  have hu : 0 < 2 ^ (D - M) := by positivity
  rw [e1, e2]
  rw [e2] at hk1 hK
  generalize 2 ^ (D - M) = u at hk hk1 hK hu ⊢
  generalize kraftSum D ds = s at hk hk1 ⊢
  generalize 2 ^ D = P at hk hK ⊢
  subst hk1 hK
  have hlt : k < K := by
    by_contra hge
    have h1 : K ≤ k := by omega
    have h2 := Nat.mul_le_mul_left (2 * u) h1
    omega
  calc 2 * u + 2 * u * k = 2 * u * (k + 1) := by ring
    _ ≤ 2 * u * K := Nat.mul_le_mul_left _ hlt

/-- An admissible assignment on two weights or more can be rearranged, at no greater
cost and on the same weights, so that two of its pairs sit at the greatest depth, which is
at least 1. -/
theorem two_deepest (D : Nat) :
    ∀ (k : Nat) (m : Multiset (Nat × Nat)), (m.map Prod.snd).sum = k →
      2 ≤ Multiset.card m → Admissible D m →
      ∃ (M w₁ w₂ : Nat) (r : Multiset (Nat × Nat)),
        1 ≤ M ∧ Admissible D ((w₁, M) ::ₘ (w₂, M) ::ₘ r) ∧ (∀ p ∈ r, p.2 ≤ M) ∧
        ((w₁, M) ::ₘ (w₂, M) ::ₘ r).map Prod.fst = m.map Prod.fst ∧
        assignmentCost ((w₁, M) ::ₘ (w₂, M) ::ₘ r) ≤ assignmentCost m := by
  intro k
  induction k using Nat.strong_induction_on with
  | _ k ih =>
    intro m hsum hcard hadm
    have hne : m ≠ 0 := by rintro rfl; simp at hcard
    obtain ⟨⟨w, M⟩, hp, hmax⟩ := exists_deepest m hne
    obtain ⟨r₀, rfl⟩ := Multiset.exists_cons_of_mem hp
    have hr₀ : r₀ ≠ 0 := by rintro rfl; simp at hcard
    have hmax₀ : ∀ q ∈ r₀, q.2 ≤ M := fun q hq => hmax q (Multiset.mem_cons_of_mem hq)
    by_cases hex : ∃ q ∈ r₀, q.2 = M
    · obtain ⟨⟨w₂, M₂⟩, hq, hq2⟩ := hex
      simp only at hq2
      subst hq2
      obtain ⟨r, rfl⟩ := Multiset.exists_cons_of_mem hq
      refine ⟨M₂, w, w₂, r, ?_, hadm, ?_, rfl, le_rfl⟩
      · by_contra h0
        have hM0 : M₂ = 0 := by omega
        subst hM0
        have := hadm.2
        simp only [Multiset.map_cons, kraftSum_cons, Nat.sub_zero] at this
        have hpos : 0 < 2 ^ D := by positivity
        omega
      · intro p hp'
        exact hmax₀ p (Multiset.mem_cons_of_mem hp')
    · have hlt : ∀ q ∈ r₀, q.2 < M := by
        intro q hq
        have h1 := hmax₀ q hq
        have h2 : q.2 ≠ M := fun h => hex ⟨q, hq, h⟩
        omega
      obtain ⟨q, hq⟩ := Multiset.exists_mem_of_ne_zero hr₀
      have hM1 : 1 ≤ M := by have := hlt q hq; omega
      have hMD : M ≤ D := hadm.1 (w, M) (Multiset.mem_cons_self _ _)
      have hadm' : Admissible D ((w, M - 1) ::ₘ r₀) := by
        refine ⟨?_, ?_⟩
        · intro p hp'
          rcases Multiset.mem_cons.1 hp' with rfl | hp'
          · simp only; omega
          · exact hadm.1 p (Multiset.mem_cons_of_mem hp')
        · have := hadm.2
          simp only [Multiset.map_cons] at this ⊢
          apply kraftSum_lower D M hMD hM1 _ _ this
          intro d hd
          obtain ⟨p, hp', rfl⟩ := Multiset.mem_map.1 hd
          exact hlt p hp'
      have hsum' : (((w, M - 1) ::ₘ r₀).map Prod.snd).sum < k := by
        simp only [Multiset.map_cons, Multiset.sum_cons] at hsum ⊢
        omega
      obtain ⟨M', w₁, w₂, r, h1, h2, h3, h4, h5⟩ :=
        ih _ hsum' ((w, M - 1) ::ₘ r₀) rfl (by simpa using hcard) hadm'
      refine ⟨M', w₁, w₂, r, h1, h2, h3, ?_, le_trans h5 ?_⟩
      · rw [h4]; simp
      · rw [assignmentCost_cons, assignmentCost_cons]
        exact Nat.add_le_add_right (Nat.mul_le_mul_left _ (Nat.sub_le _ _)) _

/-- An assignment can be rearranged, at no greater cost and on the same depths, so that a
least weight sits at the greatest depth. -/
theorem swap_to_deepest (m : Multiset (Nat × Nat)) (a M : Nat) (ha : a ∈ m.map Prod.fst)
    (hmin : ∀ p ∈ m, a ≤ p.1) (hM : M ∈ m.map Prod.snd) (hmax : ∀ p ∈ m, p.2 ≤ M) :
    ∃ r : Multiset (Nat × Nat), r.map Prod.fst = (m.map Prod.fst).erase a ∧
      M ::ₘ r.map Prod.snd = m.map Prod.snd ∧ a * M + assignmentCost r ≤ assignmentCost m := by
  obtain ⟨⟨a', d⟩, had, rfl⟩ := Multiset.mem_map.1 ha
  simp only at hmin ⊢
  by_cases hd : d = M
  · subst hd
    obtain ⟨r, rfl⟩ := Multiset.exists_cons_of_mem had
    exact ⟨r, by simp, by simp, by rw [assignmentCost_cons]⟩
  · obtain ⟨⟨w, M'⟩, hwM, rfl⟩ := Multiset.mem_map.1 hM
    simp only at hd hmax ⊢
    obtain ⟨r₁, rfl⟩ := Multiset.exists_cons_of_mem had
    have hw : (w, M') ∈ r₁ := by
      rcases Multiset.mem_cons.1 hwM with h | h
      · exact absurd (congrArg Prod.snd h).symm hd
      · exact h
    obtain ⟨r₀, rfl⟩ := Multiset.exists_cons_of_mem hw
    refine ⟨(w, d) ::ₘ r₀, by simp, ?_, ?_⟩
    · simp only [Multiset.map_cons]
      exact Multiset.cons_swap _ _ _
    · simp only [assignmentCost_cons]
      have h1 : a' ≤ w := hmin (w, M') (by simp)
      have h2 : d ≤ M' := hmax (a', d) (by simp)
      obtain ⟨e, rfl⟩ := Nat.exists_eq_add_of_le h1
      obtain ⟨g, rfl⟩ := Nat.exists_eq_add_of_le h2
      nlinarith [Nat.zero_le (e * g)]

/-- The exchange step of the optimality of Huffman's algorithm, on depth assignments: an
admissible assignment on weights of which `a` is a least one and `b` a least one of the
rest yields an admissible assignment on the weights with `a` and `b` replaced by `a + b`,
whose cost is lower by at least `a + b`. -/
theorem exchange (D : Nat) (m : Multiset (Nat × Nat)) (a b : Nat)
    (ha : a ∈ m.map Prod.fst) (hb : b ∈ (m.map Prod.fst).erase a)
    (hamin : ∀ w ∈ m.map Prod.fst, a ≤ w) (hbmin : ∀ w ∈ (m.map Prod.fst).erase a, b ≤ w)
    (hadm : Admissible D m) :
    ∃ m' : Multiset (Nat × Nat),
      m'.map Prod.fst = (a + b) ::ₘ ((m.map Prod.fst).erase a).erase b ∧
      Admissible D m' ∧ assignmentCost m' + (a + b) ≤ assignmentCost m := by
  have hcard : 2 ≤ Multiset.card m := by
    have h1 := Multiset.card_erase_of_mem ha
    have h2 : 0 < Multiset.card ((m.map Prod.fst).erase a) := Multiset.card_pos_iff_exists_mem.2 ⟨b, hb⟩
    rw [h1, Multiset.card_map] at h2
    simp only [Nat.pred_eq_sub_one] at h2
    omega
  obtain ⟨M, w₁, w₂, r, hM1, hadm₁, hr, hfst, hcost⟩ := two_deepest D _ m rfl hcard hadm
  set m₁ := (w₁, M) ::ₘ (w₂, M) ::ₘ r with hm₁
  have hmax₁ : ∀ p ∈ m₁, p.2 ≤ M := by
    intro p hp
    rw [hm₁] at hp
    rcases Multiset.mem_cons.1 hp with rfl | hp
    · exact le_rfl
    · rcases Multiset.mem_cons.1 hp with rfl | hp
      · exact le_rfl
      · exact hr p hp
  -- `a` moves to the greatest depth
  obtain ⟨r₁, hr₁fst, hr₁snd, hr₁cost⟩ := swap_to_deepest m₁ a M (by rw [hfst]; exact ha)
    (fun p hp => hamin p.1 (by rw [← hfst]; exact Multiset.mem_map_of_mem _ hp))
    (by rw [hm₁]; simp) hmax₁
  have hsnd₁ : m₁.map Prod.snd = M ::ₘ M ::ₘ r.map Prod.snd := by rw [hm₁]; simp
  have hr₁snd' : r₁.map Prod.snd = M ::ₘ r.map Prod.snd := by
    rw [hsnd₁] at hr₁snd
    exact (Multiset.cons_inj_right M).1 hr₁snd
  have hmax₂ : ∀ p ∈ r₁, p.2 ≤ M := by
    intro p hp
    have : p.2 ∈ r₁.map Prod.snd := Multiset.mem_map_of_mem _ hp
    rw [hr₁snd'] at this
    rcases Multiset.mem_cons.1 this with h | h
    · omega
    · obtain ⟨q, hq, hq2⟩ := Multiset.mem_map.1 h
      rw [← hq2]; exact hr q hq
  -- `b` moves to the greatest depth
  obtain ⟨r₂, hr₂fst, hr₂snd, hr₂cost⟩ := swap_to_deepest r₁ b M
    (by rw [hr₁fst, hfst]; exact hb)
    (fun p hp => hbmin p.1 (by rw [← hfst, ← hr₁fst]; exact Multiset.mem_map_of_mem _ hp))
    (by rw [hr₁snd']; simp) hmax₂
  have hr₂snd' : r₂.map Prod.snd = r.map Prod.snd := by
    rw [hr₁snd'] at hr₂snd
    exact (Multiset.cons_inj_right M).1 hr₂snd
  have hMD : M ≤ D := hadm₁.1 (w₁, M) (by rw [hm₁]; simp)
  refine ⟨(a + b, M - 1) ::ₘ r₂, ?_, ⟨?_, ?_⟩, ?_⟩
  · rw [Multiset.map_cons, hr₂fst, hr₁fst, hfst]
  · intro p hp
    rcases Multiset.mem_cons.1 hp with rfl | hp
    · simp only; omega
    · have : p.2 ∈ r.map Prod.snd := by rw [← hr₂snd']; exact Multiset.mem_map_of_mem _ hp
      obtain ⟨q, hq, hq2⟩ := Multiset.mem_map.1 this
      rw [← hq2]
      exact hadm₁.1 q (by rw [hm₁]; simp [hq])
  · have := hadm₁.2
    rw [hsnd₁, kraftSum_cons, kraftSum_cons] at this
    rw [Multiset.map_cons, kraftSum_cons, hr₂snd']
    have e : D - (M - 1) = (D - M) + 1 := by omega
    simp only [e, pow_succ]
    omega
  · rw [assignmentCost_cons]
    simp only
    have e : (a + b) * (M - 1) + (a + b) = a * M + b * M := by
      obtain ⟨M', rfl⟩ := Nat.exists_eq_add_of_le hM1
      simp only [Nat.add_sub_cancel_left]
      ring
    omega

/-! ## Depths and weighted path length -/

theorem leafDepths_newLeaf (c : CChar) (f d : Nat) : leafDepths (newLeaf c f) d = [(c, d)] := rfl

theorem leafDepths_newInternal {l r : HuffmanTreeNode} (hl : Built l) (d : Nat) :
    leafDepths (newInternal l r) d = leafDepths l (d + 1) ++ leafDepths r (d + 1) := by
  unfold newInternal
  cases l with
  | null => exact absurd rfl hl.ne_null
  | node c f a b => simp [leafDepths]

/-- A node that is not a leaf: the lists of leaves of its subtrees are concatenated. -/
theorem leafDepths_node (c : CChar) (f : Nat) (l r : HuffmanTreeNode) (d : Nat)
    (h : l ≠ .null ∨ r ≠ .null) :
    leafDepths (.node c f l r) d = leafDepths l (d + 1) ++ leafDepths r (d + 1) := by
  cases l with
  | null =>
    cases r with
    | null => simp at h
    | node _ _ _ _ => simp [leafDepths]
  | node _ _ _ _ => simp [leafDepths]

theorem leaves_node (c : CChar) (f : Nat) (l r : HuffmanTreeNode)
    (h : l ≠ .null ∨ r ≠ .null) :
    leaves (.node c f l r) = leaves l ++ leaves r := by
  cases l with
  | null =>
    cases r with
    | null => simp at h
    | node _ _ _ _ => simp [leaves]
  | node _ _ _ _ => simp [leaves]

theorem leafDepths_fst (t : HuffmanTreeNode) :
    ∀ d, (leafDepths t d).map Prod.fst = (leaves t).map Prod.fst := by
  induction t with
  | null => intro d; rfl
  | node c f l r ihl ihr =>
    intro d
    by_cases h : l ≠ .null ∨ r ≠ .null
    · rw [leafDepths_node c f l r d h, leaves_node c f l r h, List.map_append, List.map_append,
        ihl, ihr]
    · simp only [not_or, not_not] at h
      obtain ⟨rfl, rfl⟩ := h
      rfl

theorem leafDepths_succ (t : HuffmanTreeNode) :
    ∀ d, leafDepths t (d + 1) = (leafDepths t d).map (fun e => (e.1, e.2 + 1)) := by
  induction t with
  | null => intro d; rfl
  | node c f l r ihl ihr =>
    intro d
    by_cases h : l ≠ .null ∨ r ≠ .null
    · rw [leafDepths_node c f l r _ h, leafDepths_node c f l r _ h, List.map_append,
        ihl (d + 1), ihr (d + 1)]
    · simp only [not_or, not_not] at h
      obtain ⟨rfl, rfl⟩ := h
      rfl

theorem le_of_mem_leafDepths (t : HuffmanTreeNode) :
    ∀ d, ∀ e ∈ leafDepths t d, d ≤ e.2 := by
  induction t with
  | null => intro d e he; simp [leafDepths] at he
  | node c f l r ihl ihr =>
    intro d e he
    by_cases h : l ≠ .null ∨ r ≠ .null
    · rw [leafDepths_node c f l r _ h, List.mem_append] at he
      rcases he with he | he
      · have := ihl _ e he; omega
      · have := ihr _ e he; omega
    · simp only [not_or, not_not] at h
      obtain ⟨rfl, rfl⟩ := h
      simp [leafDepths] at he
      subst he
      exact le_rfl

/-- The Kraft inequality: in any binary tree whose leaves are no deeper than `D`, the
Kraft sum of the depths of the leaves below a node at depth `d` is at most
`2 ^ (D - d)`. -/
theorem kraftSum_leafDepths (D : Nat) (t : HuffmanTreeNode) :
    ∀ d, (∀ e ∈ leafDepths t d, e.2 ≤ D) →
      kraftSum D (((leafDepths t d).map Prod.snd : List Nat) : Multiset Nat) ≤ 2 ^ (D - d) := by
  induction t with
  | null => intro d _; simp [leafDepths, kraftSum]
  | node c f l r ihl ihr =>
    intro d hD
    by_cases h : l ≠ .null ∨ r ≠ .null
    · rw [leafDepths_node c f l r _ h] at hD ⊢
      have hl := ihl (d + 1) (fun e he => hD e (List.mem_append_left _ he))
      have hr := ihr (d + 1) (fun e he => hD e (List.mem_append_right _ he))
      have hsum : kraftSum D (((leafDepths l (d + 1) ++ leafDepths r (d + 1)).map Prod.snd :
          List Nat) : Multiset Nat) =
          kraftSum D (((leafDepths l (d + 1)).map Prod.snd : List Nat) : Multiset Nat) +
          kraftSum D (((leafDepths r (d + 1)).map Prod.snd : List Nat) : Multiset Nat) := by
        simp [kraftSum]
      rw [hsum]
      cases hlist : leafDepths l (d + 1) ++ leafDepths r (d + 1) with
      | nil =>
        rw [List.append_eq_nil] at hlist
        simp [hlist.1, hlist.2, kraftSum]
      | cons e rest =>
        have hmem : e ∈ leafDepths l (d + 1) ++ leafDepths r (d + 1) := by
          rw [hlist]; exact List.mem_cons_self _ _
        have h1 : d + 1 ≤ e.2 := by
          rcases List.mem_append.1 hmem with he | he
          · exact le_of_mem_leafDepths l _ e he
          · exact le_of_mem_leafDepths r _ e he
        have h2 := hD e hmem
        have e3 : D - d = (D - (d + 1)) + 1 := by omega
        rw [e3, pow_succ]
        omega
    · simp only [not_or, not_not] at h
      obtain ⟨rfl, rfl⟩ := h
      simp [leafDepths, kraftSum]

theorem countWeight_newLeaf (text : CString) (c : CChar) (f : Nat) :
    countWeight text (newLeaf c f) = text.count c := by
  simp [countWeight, leaves_newLeaf]

theorem countWeight_newInternal (text : CString) {l r : HuffmanTreeNode} (hl : Built l) :
    countWeight text (newInternal l r) = countWeight text l + countWeight text r := by
  simp [countWeight, leaves_newInternal hl]

theorem pathLength_newLeaf (text : CString) (c : CChar) (f : Nat) :
    pathLength text (newLeaf c f) = 0 := by
  simp [pathLength, leafDepths_newLeaf]

/-- Under a new root every leaf is one level deeper: the path length grows by the number
of occurrences of the leaves. -/
theorem pathLength_newInternal (text : CString) {l r : HuffmanTreeNode} (hl : Built l) :
    pathLength text (newInternal l r) =
      pathLength text l + pathLength text r + (countWeight text l + countWeight text r) := by
  have key : ∀ t : HuffmanTreeNode,
      ((leafDepths t 1).map (fun e => text.count e.1 * e.2)).sum =
        pathLength text t + countWeight text t := by
    intro t
    have hcw : (leaves t).map (fun e => text.count e.1) =
        (leafDepths t 0).map (fun e => text.count e.1) := by
      have := congrArg (List.map (fun c => text.count c)) (leafDepths_fst t 0)
      simpa [List.map_map, Function.comp_def] using this.symm
    unfold pathLength countWeight
    rw [leafDepths_succ t 0, List.map_map, hcw]
    generalize leafDepths t 0 = L
    induction L with
    | nil => rfl
    | cons e rest ih =>
      simp only [List.map_cons, List.sum_cons, Function.comp_apply] at ih ⊢
      rw [ih]
      ring
  unfold pathLength at key ⊢
  rw [leafDepths_newInternal hl, List.map_append, List.sum_append, key l, key r]
  ring

/-! ## Optimality of the built tree -/

/-- The heap before an iteration and after it, around the two extracted trees. -/
theorem Extracted.decompose {F : Multiset HuffmanTreeNode} {x y : HuffmanTreeNode}
    (h : Extracted F x y) :
    ∃ R, F = x ::ₘ y ::ₘ R ∧ mergeStep F x y = newInternal x y ::ₘ R := by
  refine ⟨(F.erase x).erase y, ?_, rfl⟩
  rw [Multiset.cons_erase h.mem_right, Multiset.cons_erase h.mem_left]

theorem CountInv_mergeStep (text : CString) (T : Nat) (hT : T < UNSIGNED_MOD)
    (F : Multiset HuffmanTreeNode) (x y : HuffmanTreeNode) (h : Extracted F x y)
    (hF : CountInv text T F) :
    CountInv text T (mergeStep F x y) ∧
      (newInternal x y).frequency = x.frequency + y.frequency := by
  obtain ⟨R, hR, hstep⟩ := h.decompose
  rw [hstep]
  subst hR
  have hx := hF.1 x (by simp)
  have hy := hF.1 y (by simp)
  have hsum := hF.2
  simp only [Multiset.map_cons, Multiset.sum_cons] at hsum
  have hfreq : (newInternal x y).frequency = x.frequency + y.frequency := by
    rw [frequency_newInternal, hx.2, hy.2]
    apply Nat.mod_eq_of_lt
    omega
  refine ⟨⟨?_, ?_⟩, hfreq⟩
  · intro t ht
    rcases Multiset.mem_cons.1 ht with rfl | ht
    · refine ⟨Built.internal x y hx.1 hy.1, ?_⟩
      rw [hfreq, countWeight_newInternal text hx.1, hx.2, hy.2]
    · exact hF.1 t (by simp [ht])
  · simp only [Multiset.map_cons, Multiset.sum_cons, countWeight_newInternal text hx.1]
    omega

/-- The core of optimality: the root the merge loop returns has a weighted path length no
greater than the path lengths already in the heap plus the cost of any admissible
assignment of depths to the frequencies of the heap. -/
theorem mergeLoop_pathLength_le (H : PriorityQueue) (text : CString) (T : Nat)
    (hT : T < UNSIGNED_MOD) :
    ∀ (n : Nat) (q : H.Q) (root : HuffmanTreeNode),
      Multiset.card (H.elems q) = n + 1 → CountInv text T (H.elems q) →
      (n = 0 → H.elems q = {root}) →
      ∀ (D : Nat) (m : Multiset (Nat × Nat)),
        m.map Prod.fst = (H.elems q).map HuffmanTreeNode.frequency → Admissible D m →
        pathLength text (mergeLoop H q root) ≤
          ((H.elems q).map (pathLength text)).sum + assignmentCost m := by
  intro n
  induction n with
  | zero =>
    intro q root hcard _ hroot D m _ _
    rw [mergeLoop_done H q root (by rw [H.size_eq, hcard]), hroot rfl]
    simp
  | succ n ih =>
    intro q root hcard hinv _ D m hfst hadm
    have hsize : 1 < H.size q := by rw [H.size_eq, hcard]; omega
    obtain ⟨hex, helems, hc⟩ := extracted_of_size H q hsize
    rw [mergeLoop_step H q root hsize]
    generalize H.top q = x at hex helems hc ⊢
    generalize H.top (H.pop q) = y at hex helems hc ⊢
    obtain ⟨hinv', hfreq⟩ := CountInv_mergeStep text T hT _ x y hex hinv
    obtain ⟨R, hR, hstep⟩ := hex.decompose
    have hx := hinv.1 x hex.mem_left
    -- the exchange step on the assignment
    have hfst' : m.map Prod.fst =
        x.frequency ::ₘ y.frequency ::ₘ R.map HuffmanTreeNode.frequency := by
      rw [hfst, hR]; simp
    have herase : (m.map Prod.fst).erase x.frequency =
        y.frequency ::ₘ R.map HuffmanTreeNode.frequency := by
      rw [hfst']; simp
    obtain ⟨m', hm'fst, hm'adm, hm'cost⟩ := exchange D m x.frequency y.frequency
      (by rw [hfst']; simp) (by rw [herase]; simp)
      (by
        intro w hw
        rw [hfst] at hw
        obtain ⟨z, hz, rfl⟩ := Multiset.mem_map.1 hw
        exact hex.min_left z hz)
      (by
        intro w hw
        rw [herase] at hw
        have : w ∈ ((H.elems q).erase x).map HuffmanTreeNode.frequency := by
          rw [hR]; simpa using hw
        obtain ⟨z, hz, rfl⟩ := Multiset.mem_map.1 this
        exact hex.min_right z hz)
      hadm
    have hm'fst' : m'.map Prod.fst =
        (H.elems (H.push (H.pop (H.pop q)) (newInternal x y))).map HuffmanTreeNode.frequency := by
      rw [hm'fst, herase, helems, hstep]
      simp [hfreq]
    have := ih (H.push (H.pop (H.pop q)) (newInternal x y)) (newInternal x y)
      (by rw [helems]; omega) (by rw [helems]; exact hinv')
      (by
        intro hn
        rw [helems, hstep]
        have : Multiset.card R = 0 := by
          rw [hstep] at hc
          simp only [Multiset.card_cons] at hc
          omega
        rw [Multiset.card_eq_zero.1 this]
        rfl)
      D m' hm'fst' hm'adm
    refine le_trans this ?_
    rw [helems, hstep, hR]
    simp only [Multiset.map_cons, Multiset.sum_cons, pathLength_newInternal text hx.1]
    have e1 := hx.2
    have e2 := (hinv.1 y (Multiset.mem_of_mem_erase hex.mem_right)).2
    omega

/-- The assignment of depths a binary tree gives to the occurrence counts of its leaves. -/
theorem admissible_of_tree (text : CString) (t : HuffmanTreeNode) :
    ∃ D, Admissible D
      (((leafDepths t 0).map (fun e => (text.count e.1, e.2)) : List (Nat × Nat)) :
        Multiset (Nat × Nat)) := by
  refine ⟨((leafDepths t 0).map Prod.snd).sum, ?_, ?_⟩
  · intro p hp
    simp only [Multiset.mem_coe, List.mem_map] at hp
    obtain ⟨e, he, rfl⟩ := hp
    exact List.single_le_sum (fun _ _ => Nat.zero_le _) _ (List.mem_map_of_mem _ he)
  · have := kraftSum_leafDepths ((leafDepths t 0).map Prod.snd).sum t 0
      (fun e he => List.single_le_sum (fun _ _ => Nat.zero_le _) _ (List.mem_map_of_mem _ he))
    simpa [Function.comp_def] using this

theorem CountInv_initial (H : PriorityQueue) (text : CString)
    (hlen : text.length < UNSIGNED_MOD) :
    CountInv text text.length
      (H.elems (pushLeaves H (CreateFrequencyTable text (fun _ => none)) (characters text))) := by
  rw [elems_pushLeaves]
  have hleaf : ∀ c ∈ characters text,
      leafOf (CreateFrequencyTable text (fun _ => none)) c = newLeaf c (text.count c) := by
    intro c hc
    have hmem := (mem_characters text c).1 hc
    have hne : text.count c ≠ 0 := by
      have := List.count_pos_iff.2 hmem
      omega
    unfold leafOf
    rw [CreateFrequencyTable_empty]
    simp only [hne, if_false, Option.getD_some]
    rw [Nat.mod_eq_of_lt (lt_of_le_of_lt (List.count_le_length c text) hlen)]
  rw [List.map_congr_left hleaf]
  refine ⟨?_, ?_⟩
  · intro t ht
    simp only [Multiset.mem_coe, List.mem_map] at ht
    obtain ⟨c, _, rfl⟩ := ht
    exact ⟨Built.leaf _ _, by rw [countWeight_newLeaf]; rfl⟩
  · rw [Multiset.map_coe, Multiset.sum_coe, List.map_map, ← sum_count_characters text]
    congr 1

/-- The tree built for a text of fewer than `2 ^ 32` characters with two distinct
characters or more costs no more than any admissible assignment of depths to the
occurrence counts of the distinct characters. -/
theorem BuildHuffmanTree_pathLength_le (H : PriorityQueue) (text : CString)
    (h2 : 2 ≤ (characters text).length) (hlen : text.length < UNSIGNED_MOD)
    (D : Nat) (m : Multiset (Nat × Nat))
    (hm : m.map Prod.fst = (((characters text).map (fun c => text.count c) : List Nat) :
      Multiset Nat))
    (hadm : Admissible D m) :
    pathLength text (BuildHuffmanTree H text) ≤ assignmentCost m := by
  obtain ⟨n, hn⟩ : ∃ n, (characters text).length = n + 1 :=
    ⟨(characters text).length - 1, by omega⟩
  have hinv := CountInv_initial H text hlen
  have hfreq : (H.elems (pushLeaves H (CreateFrequencyTable text (fun _ => none))
      (characters text))).map HuffmanTreeNode.frequency =
      (((characters text).map (fun c => text.count c) : List Nat) : Multiset Nat) := by
    have : (H.elems (pushLeaves H (CreateFrequencyTable text (fun _ => none))
        (characters text))).map HuffmanTreeNode.frequency =
        (H.elems (pushLeaves H (CreateFrequencyTable text (fun _ => none))
        (characters text))).map (countWeight text) :=
      Multiset.map_congr rfl (fun t ht => (hinv.1 t ht).2)
    rw [this, elems_pushLeaves, Multiset.map_coe, List.map_map]
    congr 1
  have hzero : ((H.elems (pushLeaves H (CreateFrequencyTable text (fun _ => none))
      (characters text))).map (pathLength text)).sum = 0 := by
    rw [elems_pushLeaves, Multiset.map_coe, Multiset.sum_coe, List.map_map]
    apply List.sum_eq_zero
    intro x hx
    obtain ⟨c, _, rfl⟩ := List.mem_map.1 hx
    simp [leafOf, pathLength_newLeaf]
  have := mergeLoop_pathLength_le H text text.length hlen n _ .null
    (by rw [card_pushLeaves, hn]) hinv (fun h0 => absurd h0 (by omega)) D m
    (by rw [hm, hfreq]) hadm
  rw [hzero, zero_add] at this
  exact this

/-! ## Optimality, the claim -/

/-- The tree built for a text of fewer than `2 ^ 32` characters costs no more than any
binary tree whose leaves are the distinct characters of the text. -/
theorem BuildHuffmanTree_le_tree (H : PriorityQueue) (text : CString)
    (h2 : 2 ≤ (characters text).length) (hlen : text.length < UNSIGNED_MOD)
    (t' : HuffmanTreeNode) (hleaves : ((leaves t').map Prod.fst).Perm (characters text)) :
    pathLength text (BuildHuffmanTree H text) ≤ pathLength text t' := by
  obtain ⟨D, hadm⟩ := admissible_of_tree text t'
  have := BuildHuffmanTree_pathLength_le H text h2 hlen D _ ?_ hadm
  · refine le_trans this (le_of_eq ?_)
    unfold assignmentCost pathLength
    rw [Multiset.map_coe, Multiset.sum_coe, List.map_map]
    rfl
  · rw [Multiset.map_coe, List.map_map]
    apply Multiset.coe_eq_coe.2
    have h1 := (hleaves.map (fun c => text.count c))
    rw [← leafDepths_fst t' 0, List.map_map] at h1
    exact h1

theorem leaves_BuildHuffmanTree (H : PriorityQueue) (text : CString)
    (h2 : 2 ≤ (characters text).length) :
    ((leaves (BuildHuffmanTree H text)).map Prod.fst).Perm (characters text) := by
  have := (BuildHuffmanTree_built H text h2).2.map Prod.fst
  unfold initialLeaves at this
  rw [List.map_map] at this
  simpa [Function.comp_def] using this

/-- C7, as amended. Optimality: for every text of fewer than `2 ^ 32` characters with at
least two distinct characters and every priority queue, whatever way it breaks ties, the
tree returned by `BuildHuffmanTree` is an optimal prefix-code tree: its leaves are exactly
the distinct characters of the text, and its weighted path length (the sum over the
distinct characters of the occurrence count times the depth of the leaf) is less than or
equal to that of every binary tree whose leaves are exactly the distinct characters of the
text. -/
theorem huffman_tree_optimal (H : PriorityQueue) (text : CString) (h : TwoDistinct text)
    (hlen : text.length < UNSIGNED_MOD) :
    ((leaves (BuildHuffmanTree H text)).map Prod.fst).Perm (characters text) ∧
      ∀ t' : HuffmanTreeNode, ((leaves t').map Prod.fst).Perm (characters text) →
        pathLength text (BuildHuffmanTree H text) ≤ pathLength text t' :=
  ⟨leaves_BuildHuffmanTree H text ((twoDistinct_iff text).1 h),
    fun t' ht' => BuildHuffmanTree_le_tree H text ((twoDistinct_iff text).1 h) hlen t' ht'⟩

/-- The witness of `huffman_tree_optimal`: for `"aaab"` the built tree costs no more than
its mirror image. -/
theorem huffman_tree_optimal_witness :
    TwoDistinct text_aaab ∧ text_aaab.length < UNSIGNED_MOD ∧
      ((leaves tree_aaab_mirrored).map Prod.fst).Perm (characters text_aaab) ∧
      pathLength text_aaab (BuildHuffmanTree listQueue text_aaab) ≤
        pathLength text_aaab tree_aaab_mirrored :=
  have h : TwoDistinct text_aaab :=
    ⟨CChar.ofInt 97, by decide, CChar.ofInt 98, by decide, by decide⟩
  have hp : ((leaves tree_aaab_mirrored).map Prod.fst).Perm (characters text_aaab) := by
    decide
  ⟨h, by decide, hp, (huffman_tree_optimal listQueue text_aaab h (by decide)).2 _ hp⟩

/-! ## Optimality, the counterexample -/

theorem mem_run_append (n : Nat) (a : CChar) (l : CString) (hn : 0 < n) (c : CChar) :
    c ∈ List.replicate n a ++ l ↔ c = a ∨ c ∈ l := by
  rw [List.mem_append, List.mem_replicate]
  constructor
  · rintro (h | h)
    · exact Or.inl h.2
    · exact Or.inr h
  · rintro (h | h)
    · exact Or.inl ⟨by omega, h⟩
    · exact Or.inr h

theorem count_run_append (n : Nat) (a : CChar) (l : CString) (c : CChar) :
    (List.replicate n a ++ l).count c = (if a = c then n else 0) + l.count c := by
  rw [List.count_append, List.count_replicate]
  simp

theorem characters_text_skew :
    characters text_skew = [CChar.ofInt 97, CChar.ofInt 98, CChar.ofInt 99] := by
  apply characters_eq_of_sorted
  · decide
  · intro c
    unfold text_skew
    rw [mem_run_append _ _ _ (by norm_num)]
    simp

theorem count_text_skew :
    text_skew.count (CChar.ofInt 97) = 2 ^ 32 ∧ text_skew.count (CChar.ofInt 98) = 1 ∧
      text_skew.count (CChar.ofInt 99) = 1 := by
  unfold text_skew
  refine ⟨?_, ?_, ?_⟩ <;> rw [count_run_append] <;> decide

theorem leafOf_eq (text : CString) (c : CChar) (hc : text.count c ≠ 0) :
    leafOf (CreateFrequencyTable text (fun _ => none)) c =
      newLeaf c (text.count c % UNSIGNED_MOD) := by
  unfold leafOf
  rw [CreateFrequencyTable_empty]
  simp [hc]

/-- The cost of one leaf is at most the weighted path length of the tree. -/
theorem le_pathLength_of_mem (text : CString) (t : HuffmanTreeNode) (c : CChar) (d : Nat)
    (h : (c, d) ∈ leafDepths t 0) : text.count c * d ≤ pathLength text t := by
  unfold pathLength
  exact List.single_le_sum (fun _ _ => Nat.zero_le _) _
    (List.mem_map.2 ⟨(c, d), h, rfl⟩)

/-- Whatever the priority queue, the leaf `a` of the tree built for `text_skew` is at
depth 2: its stored frequency has wrapped to `0`, so it is extracted first. -/
theorem depth_a_text_skew (H : PriorityQueue) :
    (CChar.ofInt 97, 2) ∈ leafDepths (BuildHuffmanTree H text_skew) 0 := by
  have hmem := BuildHuffmanTree_mem_outcomes H text_skew
    (by rw [characters_text_skew]; decide)
  rw [characters_text_skew] at hmem
  simp only [List.map_cons, List.map_nil, List.length_cons, List.length_nil] at hmem
  rw [leafOf_eq text_skew _ (by rw [count_text_skew.1]; norm_num),
    leafOf_eq text_skew _ (by rw [count_text_skew.2.1]; norm_num),
    leafOf_eq text_skew _ (by rw [count_text_skew.2.2]; norm_num),
    count_text_skew.1, count_text_skew.2.1, count_text_skew.2.2] at hmem
  have hall : ∀ t ∈ outcomes (0 + 1 + 1 + 1)
      [newLeaf (CChar.ofInt 97) (2 ^ 32 % UNSIGNED_MOD),
        newLeaf (CChar.ofInt 98) (1 % UNSIGNED_MOD),
        newLeaf (CChar.ofInt 99) (1 % UNSIGNED_MOD)],
      (CChar.ofInt 97, 2) ∈ leafDepths t 0 := by decide
  exact hall _ hmem

theorem pathLength_tree_shallow_a (text : CString) :
    pathLength text tree_shallow_a =
      text.count (CChar.ofInt 97) + (text.count (CChar.ofInt 98) * 2 +
        text.count (CChar.ofInt 99) * 2) := by
  unfold pathLength
  rw [show leafDepths tree_shallow_a 0 =
    [(CChar.ofInt 97, 1), (CChar.ofInt 98, 2), (CChar.ofInt 99, 2)] from by decide]
  simp

/-- C7, the counterexample. The text of `2 ^ 32` copies of `'a'` followed by `"bc"` has
three distinct characters, and with no priority queue is the built tree optimal: the count
of `'a'` wraps to `0`, the leaf `a` ends at depth 2, and the tree with `a` at depth 1 has a
smaller weighted path length. -/
theorem huffman_tree_not_optimal_on_overflow :
    TwoDistinct text_skew ∧
      ¬ ∃ H : PriorityQueue,
        ∀ t' : HuffmanTreeNode, ((leaves t').map Prod.fst).Perm (characters text_skew) →
          pathLength text_skew (BuildHuffmanTree H text_skew) ≤ pathLength text_skew t' := by
  refine ⟨(twoDistinct_iff _).2 (by rw [characters_text_skew]; decide), ?_⟩
  rintro ⟨H, hopt⟩
  have h1 := hopt tree_shallow_a (by rw [characters_text_skew]; decide)
  have h2 := le_pathLength_of_mem text_skew _ _ _ (depth_a_text_skew H)
  have h3 : pathLength text_skew tree_shallow_a = 2 ^ 32 + 4 := by
    rw [pathLength_tree_shallow_a, count_text_skew.1, count_text_skew.2.1, count_text_skew.2.2]
  rw [count_text_skew.1] at h2
  rw [h3] at h1
  generalize pathLength text_skew (BuildHuffmanTree H text_skew) = P at h1 h2
  omega

/-! ## The length of the encoding -/

theorem length_encodeWith (tbl : LookupTable) (text : CString) :
    (encodeWith tbl text).length = (text.map (fun c => (lookupCode tbl c).length)).sum := by
  induction text with
  | nil => rfl
  | cons c rest ih => simp [encodeWith, ih]

/-- A sum over the characters of a text, regrouped by distinct character. -/
theorem sum_map_characters (text : CString) (g : CChar → Nat) :
    (text.map g).sum = ((characters text).map (fun c => text.count c * g c)).sum := by
  rw [Finset.sum_list_map_count, ← List.sum_toFinset _ (characters_nodup text)]
  have : (characters text).toFinset = text.toFinset := by
    ext c
    simp [mem_characters]
  rw [this]
  simp

/-- There are at most 256 distinct characters. -/
theorem length_characters_le (text : CString) : (characters text).length ≤ 256 := by
  have hnd : ((characters text).map (fun c : CChar => c.val)).Nodup :=
    (characters_nodup text).map Subtype.val_injective
  have hsub : ((characters text).map (fun c : CChar => c.val)).toFinset ⊆
      Finset.Icc (-128 : Int) 127 := by
    intro z hz
    simp only [List.mem_toFinset, List.mem_map] at hz
    obtain ⟨c, _, rfl⟩ := hz
    exact Finset.mem_Icc.2 c.property
  have hcard := Finset.card_le_card hsub
  rw [List.toFinset_card_of_nodup hnd, List.length_map, Int.card_Icc] at hcard
  simpa using hcard

/-- The lengths of the codes written for a constructed tree are the depths of its leaves
that pass the leaf test. -/
theorem codes_lengths {t : HuffmanTreeNode} (h : Built t) :
    ∀ p : CString, (codes t p).map (fun e => (e.1, e.2.length)) =
      (leafDepths t p.length).filter (fun e => decide ((-1 : Int) < e.1.val)) := by
  induction h with
  | leaf c f =>
    intro p
    rw [codes_newLeaf, leafDepths_newLeaf]
    by_cases hc : (-1 : Int) < c.val <;> simp [hc]
  | internal l r hl _ ihl ihr =>
    intro p
    rw [codes_newInternal, leafDepths_newInternal hl, List.map_append, List.filter_append,
      ihl, ihr]
    simp

/-- In the table of a text the code of a character is no longer than the depth of its
leaf in the tree. -/
theorem length_lookupCode_le (H : PriorityQueue) (text : CString)
    (h2 : 2 ≤ (characters text).length) (e : CChar × Nat)
    (he : e ∈ leafDepths (BuildHuffmanTree H text) 0) :
    (lookupCode (lookupTableOf H text) e.1).length ≤ e.2 := by
  have hb := (BuildHuffmanTree_built H text h2).1
  have hperm := leaves_BuildHuffmanTree H text h2
  rw [← leafDepths_fst _ 0] at hperm
  have hnd : ((leafDepths (BuildHuffmanTree H text) 0).map Prod.fst).Nodup :=
    hperm.nodup_iff.2 (characters_nodup text)
  have hmem : e.1 ∈ text :=
    (mem_characters text e.1).1 (hperm.mem_iff.1 (List.mem_map_of_mem _ he))
  have hspec := lookupTableOf_spec H text h2 e.1 hmem
  unfold lookupCode
  split at hspec
  · obtain ⟨s, hs, hcode⟩ := hspec
    rw [hs, Option.getD_some]
    have h1 : (e.1, s.length) ∈ (codes (BuildHuffmanTree H text) []).map
        (fun e => (e.1, e.2.length)) := List.mem_map.2 ⟨(e.1, s), hcode, rfl⟩
    rw [codes_lengths hb [], List.mem_filter] at h1
    have h2 := List.inj_on_of_nodup_map hnd h1.1 he rfl
    rw [← h2]
  · rw [hspec]
    simp

/-- The encoding of a text is no longer than the weighted path length of its tree. -/
theorem length_Encode_le_pathLength (H : PriorityQueue) (text : CString)
    (h2 : 2 ≤ (characters text).length) :
    (Encode H text).length ≤ pathLength text (BuildHuffmanTree H text) := by
  unfold Encode
  rw [length_encodeWith, sum_map_characters]
  have hperm := leaves_BuildHuffmanTree H text h2
  rw [← leafDepths_fst _ 0] at hperm
  rw [← (hperm.map _).sum_eq, List.map_map]
  unfold pathLength
  apply List.sum_le_sum
  intro e he
  exact Nat.mul_le_mul_left _ (length_lookupCode_le H text h2 e he)

/-- The assignment of the depth 8 to every distinct character is admissible: there are at
most `2 ^ 8` of them. -/
theorem admissible_depth_eight (text : CString) :
    Admissible 8 (((characters text).map (fun c => (text.count c, 8)) : List (Nat × Nat)) :
      Multiset (Nat × Nat)) := by
  refine ⟨?_, ?_⟩
  · intro p hp
    simp only [Multiset.mem_coe, List.mem_map] at hp
    obtain ⟨c, _, rfl⟩ := hp
    exact le_rfl
  · have hlen := length_characters_le text
    unfold kraftSum
    simp only [Multiset.map_coe, Multiset.sum_coe, List.map_map]
    have : ((characters text).map
        ((fun d => 2 ^ (8 - d)) ∘ Prod.snd ∘ fun c => (text.count c, 8))).sum =
        (characters text).length := by
      generalize characters text = cs
      induction cs with
      | nil => rfl
      | cons c rest ih =>
        simp only [List.map_cons, List.sum_cons, List.length_cons, ih, Function.comp_apply]
        omega
    rw [this]
    omega

/-- For every text of fewer than `2 ^ 32` characters the encoding has at most 8 bits per
character. -/
theorem length_Encode_le (H : PriorityQueue) (text : CString)
    (hlen : text.length < UNSIGNED_MOD) : (Encode H text).length ≤ 8 * text.length := by
  by_cases h2 : 2 ≤ (characters text).length
  · refine le_trans (length_Encode_le_pathLength H text h2) ?_
    refine le_trans (BuildHuffmanTree_pathLength_le H text h2 hlen 8 _ ?_
      (admissible_depth_eight text)) (le_of_eq ?_)
    · rw [Multiset.map_coe, List.map_map]
      rfl
    · unfold assignmentCost
      rw [Multiset.map_coe, Multiset.sum_coe, List.map_map, ← sum_count_characters text]
      generalize characters text = cs
      induction cs with
      | nil => rfl
      | cons c rest ih =>
        simp only [List.map_cons, List.sum_cons, Function.comp_apply] at ih ⊢
        rw [ih]
        ring
  · rw [Encode_of_null H text (by omega)]
    simp

/-- C8, as amended. Compression sanity: for every non-empty text of fewer than `2 ^ 32`
characters in which at least one character's count exceeds the average count per distinct
character, and every priority queue, the number of bits in `Encode(text)` is at most 8
times the length of the text. -/
theorem compression_sanity (H : PriorityQueue) (text : CString) (_hne : text ≠ [])
    (_hskew : Skewed text) (hlen : text.length < UNSIGNED_MOD) :
    (Encode H text).length ≤ 8 * text.length :=
  length_Encode_le H text hlen

/-- The witness of `compression_sanity`: the text `"aaab"`, in which `'a'` occurs 3 times
for an average of 2. -/
theorem compression_sanity_witness :
    text_aaab ≠ [] ∧ Skewed text_aaab ∧ text_aaab.length < UNSIGNED_MOD ∧
      (Encode listQueue text_aaab).length ≤ 8 * text_aaab.length :=
  have hs : Skewed text_aaab := ⟨CChar.ofInt 97, by decide, by decide⟩
  ⟨by decide, hs, by decide, compression_sanity listQueue text_aaab (by decide) hs (by decide)⟩

/-! ## The length of the encoding, the counterexample -/

/-- In the table of a text the code of a character that passes the leaf test is as long
as its leaf is deep. -/
theorem length_lookupCode_eq (H : PriorityQueue) (text : CString)
    (h2 : 2 ≤ (characters text).length) (c : CChar) (d : Nat)
    (he : (c, d) ∈ leafDepths (BuildHuffmanTree H text) 0) (hpos : (-1 : Int) < c.val) :
    (lookupCode (lookupTableOf H text) c).length = d := by
  have hb := (BuildHuffmanTree_built H text h2).1
  have hperm := leaves_BuildHuffmanTree H text h2
  rw [← leafDepths_fst _ 0] at hperm
  have hnd : ((leafDepths (BuildHuffmanTree H text) 0).map Prod.fst).Nodup :=
    hperm.nodup_iff.2 (characters_nodup text)
  have hmem : c ∈ text :=
    (mem_characters text c).1 (hperm.mem_iff.1 (List.mem_map.2 ⟨(c, d), he, rfl⟩))
  have hspec := lookupTableOf_spec H text h2 c hmem
  rw [if_pos hpos] at hspec
  obtain ⟨s, hs, hcode⟩ := hspec
  unfold lookupCode
  rw [hs, Option.getD_some]
  have h1 : (c, s.length) ∈ (codes (BuildHuffmanTree H text) []).map
      (fun e => (e.1, e.2.length)) := List.mem_map.2 ⟨(c, s), hcode, rfl⟩
  rw [codes_lengths hb [], List.mem_filter] at h1
  have h3 := List.inj_on_of_nodup_map hnd h1.1 he rfl
  exact congrArg Prod.snd h3

theorem encodeWith_append (tbl : LookupTable) (s t : CString) :
    encodeWith tbl (s ++ t) = encodeWith tbl s ++ encodeWith tbl t := by
  induction s with
  | nil => rfl
  | cons c rest ih => simp [encodeWith, ih]

theorem length_encodeWith_replicate (tbl : LookupTable) (n : Nat) (c : CChar) :
    (encodeWith tbl (List.replicate n c)).length = n * (lookupCode tbl c).length := by
  induction n with
  | zero => simp [encodeWith]
  | succ n ih =>
    rw [List.replicate_succ, encodeWith, List.length_append, ih]
    ring

set_option maxRecDepth 100000 in
theorem characters_tail_deep :
    characters tail_deep = (List.range 9).map (fun (i : Nat) => CChar.ofInt (98 + (i : Int))) := by
  decide

set_option maxRecDepth 100000 in
theorem characters_text_deep :
    characters text_deep =
      CChar.ofInt 97 :: (List.range 9).map (fun (i : Nat) => CChar.ofInt (98 + (i : Int))) := by
  apply characters_eq_of_sorted
  · decide
  · intro c
    unfold text_deep
    rw [mem_run_append _ _ _ (by norm_num), ← mem_characters tail_deep, characters_tail_deep,
      List.mem_cons]

theorem count_text_deep (c : CChar) :
    text_deep.count c = (if CChar.ofInt 97 = c then 2 ^ 32 else 0) + tail_deep.count c := by
  unfold text_deep
  exact count_run_append _ _ _ _

set_option maxRecDepth 100000 in
theorem initial_heap_text_deep :
    (characters text_deep).map (leafOf (CreateFrequencyTable text_deep (fun _ => none))) =
      leaves_deep := by
  have hleaf : ∀ c ∈ characters text_deep,
      leafOf (CreateFrequencyTable text_deep (fun _ => none)) c =
        newLeaf c (((if CChar.ofInt 97 = c then 2 ^ 32 else 0) + tail_deep.count c) %
          UNSIGNED_MOD) := by
    intro c hc
    have hne : text_deep.count c ≠ 0 := by
      have := List.count_pos_iff.2 ((mem_characters text_deep c).1 hc)
      omega
    rw [leafOf_eq text_deep c hne, count_text_deep]
  rw [List.map_congr_left hleaf, characters_text_deep]
  decide

set_option maxRecDepth 100000 in
/-- Whatever the priority queue, the leaf `a` of the tree built for `text_deep` is at
depth 9: its stored frequency has wrapped to `0`, and every merge is forced. -/
theorem depth_a_text_deep (H : PriorityQueue) :
    (CChar.ofInt 97, 9) ∈ leafDepths (BuildHuffmanTree H text_deep) 0 := by
  have hmem := BuildHuffmanTree_mem_outcomes H text_deep
    (by rw [characters_text_deep]; decide)
  rw [initial_heap_text_deep, characters_text_deep] at hmem
  have hall : ∀ t ∈ outcomes
      (CChar.ofInt 97 ::
        (List.range 9).map (fun (i : Nat) => CChar.ofInt (98 + (i : Int)))).length
      leaves_deep, (CChar.ofInt 97, 9) ∈ leafDepths t 0 := by decide
  exact hall _ hmem

set_option maxRecDepth 100000 in
theorem length_text_deep : text_deep.length = 2 ^ 32 + 511 := by
  unfold text_deep
  rw [List.length_append, List.length_replicate,
    show tail_deep.length = 511 from by decide]

set_option maxRecDepth 100000 in
theorem count_a_text_deep : text_deep.count (CChar.ofInt 97) = 2 ^ 32 := by
  rw [count_text_deep]; decide

theorem length_characters_text_deep : (characters text_deep).length = 10 := by
  rw [characters_text_deep]; rfl

/-- C8, the counterexample. The text of `2 ^ 32` copies of `'a'` followed by the 511
characters of `tail_deep` is not empty and `'a'` occurs in it more often than the average,
yet with no priority queue is its encoding at most 8 bits per character: the count of
`'a'` wraps to `0`, its code has 9 bits, and the encoding has more than `9 * 2 ^ 32`
bits. -/
theorem compression_fails_on_overflow :
    text_deep ≠ [] ∧ Skewed text_deep ∧
      ¬ ∃ H : PriorityQueue, (Encode H text_deep).length ≤ 8 * text_deep.length := by
  have hcount := count_a_text_deep
  have hmem : CChar.ofInt 97 ∈ text_deep :=
    List.count_pos_iff.1 (by rw [hcount]; norm_num)
  refine ⟨List.ne_nil_of_mem hmem, ⟨CChar.ofInt 97, hmem, ?_⟩, ?_⟩
  · rw [length_text_deep, hcount, length_characters_text_deep]
    norm_num
  · rintro ⟨H, hle⟩
    have h2 : 2 ≤ (characters text_deep).length := by
      rw [length_characters_text_deep]; norm_num
    have hcode := length_lookupCode_eq H text_deep h2 _ _ (depth_a_text_deep H) (by decide)
    have hlen : 2 ^ 32 * 9 ≤ (Encode H text_deep).length := by
      unfold Encode
      generalize lookupTableOf H text_deep = tbl at hcode ⊢
      unfold text_deep
      rw [encodeWith_append, List.length_append, length_encodeWith_replicate, hcode]
      exact Nat.le_add_right _ _
    rw [length_text_deep] at hle
    generalize (Encode H text_deep).length = L at hle hlen
    omega

/-! ## The tree depends on the frequencies only -/

theorem characters_perm {text1 text2 : CString} (h : text1.Perm text2) :
    characters text1 = characters text2 :=
  characters_eq_of_sorted text1 _ (characters_sorted text2)
    (fun c => by rw [mem_characters, h.mem_iff])

theorem CreateFrequencyTable_perm {text1 text2 : CString} (h : text1.Perm text2) :
    CreateFrequencyTable text1 (fun _ => none) = CreateFrequencyTable text2 (fun _ => none) := by
  funext c
  rw [CreateFrequencyTable_empty, CreateFrequencyTable_empty, h.count_eq]

/-- C18. The tree depends only on the frequencies: for any two texts that are permutations
of one another and every priority queue, `BuildHuffmanTree` returns structurally identical
trees (same shape, symbols and frequencies), hence the derived lookup tables are
identical: the leaves are pushed in the order of the set of characters with counts that do
not depend on the order of the text. -/
theorem permuted_texts_same_tree (H : PriorityQueue) (text1 text2 : CString)
    (h : text1.Perm text2) :
    BuildHuffmanTree H text1 = BuildHuffmanTree H text2 ∧
      CreateLookupTable (BuildHuffmanTree H text1) (fun _ => none) [] =
        CreateLookupTable (BuildHuffmanTree H text2) (fun _ => none) [] := by
  have e : BuildHuffmanTree H text1 = BuildHuffmanTree H text2 := by
    unfold BuildHuffmanTree
    rw [characters_perm h, CreateFrequencyTable_perm h]
  exact ⟨e, by rw [e]⟩

/-- The witness of `permuted_texts_same_tree`: the texts `"aaab"` and `"baaa"`. -/
theorem permuted_texts_same_tree_witness :
    text_aaab.Perm text_baaa ∧
      BuildHuffmanTree listQueue text_aaab = BuildHuffmanTree listQueue text_baaa :=
  have h : text_aaab.Perm text_baaa := by decide
  ⟨h, (permuted_texts_same_tree listQueue text_aaab text_baaa h).1⟩

/-! ## Round trip on in-range symbols -/

/-- C16. Round trip on in-range symbols: for every text with at least two distinct
characters, all of whose characters have a non-negative `char` value, and every priority
queue, `Decode(Encode(text), BuildHuffmanTree(text))` equals the text. -/
theorem round_trip_in_range (H : PriorityQueue) (text : CString) (h : TwoDistinct text)
    (hnn : NonNegative text) :
    Decode (Encode H text) (BuildHuffmanTree H text) = some text := by
  rw [Decode_Encode H text ((twoDistinct_iff text).1 h), (leafTested_eq_self text).2 hnn]

/-- The witness of `round_trip_in_range`: the text `"abbcccc"`. -/
theorem round_trip_in_range_witness :
    TwoDistinct text_abbcccc ∧ NonNegative text_abbcccc ∧
      Decode (Encode listQueue text_abbcccc) (BuildHuffmanTree listQueue text_abbcccc) =
        some text_abbcccc :=
  have h : TwoDistinct text_abbcccc :=
    ⟨CChar.ofInt 97, by decide, CChar.ofInt 98, by decide, by decide⟩
  ⟨h, by decide, round_trip_in_range listQueue text_abbcccc h (by decide)⟩

/-! ## Characters that are not bits -/

theorem moveCursor_not_bit (character : CChar) (h : isBit character = false) (c : CChar)
    (f : Nat) (l r : HuffmanTreeNode) :
    moveCursor character (.node c f l r) = some (.node c f l r) := by
  unfold isBit at h
  have h' := of_decide_eq_false h
  rw [not_or] at h'
  simp [moveCursor, h'.1, h'.2]

/-- While the cursor rests on a node that fails the leaf test, and the root is such a
node, a character other than `'0'` and `'1'` changes nothing: the loop of `Decode` ends in
the same state as on the string without these characters. -/
theorem DecodeLoop_filter_bits (rc : CChar) (rf : Nat) (rl rr : HuffmanTreeNode)
    (hroot : ¬ (-1 : Int) < rc.val) :
    ∀ (encoded_text : CString) (c : CChar) (f : Nat) (l r : HuffmanTreeNode) (acc : CString),
      ¬ (-1 : Int) < c.val →
      DecodeLoop (.node rc rf rl rr) encoded_text (.node c f l r) acc =
        DecodeLoop (.node rc rf rl rr) (encoded_text.filter isBit) (.node c f l r) acc := by
  intro encoded_text
  induction encoded_text with
  | nil => intro c f l r acc _; rfl
  | cons b rest ih =>
    intro c f l r acc hc
    by_cases hb : isBit b = true
    · rw [List.filter_cons_of_pos hb]
      unfold DecodeLoop
      cases hm : moveCursor b (.node c f l r) with
      | none => rfl
      | some t =>
        cases t with
        | null => rfl
        | node c' f' l' r' =>
          simp only
          split
          · exact ih rc rf rl rr _ hroot
          · rename_i hc'
            exact ih c' f' l' r' _ hc'
    · have hb' : isBit b = false := by simpa using hb
      rw [List.filter_cons_of_neg hb]
      rw [DecodeLoop, moveCursor_not_bit b hb']
      simp only [if_neg hc]
      exact ih c f l r acc hc

/-- C19. Decode ignores non-bit characters: for every tree returned by `BuildHuffmanTree`
from a text with at least two distinct characters, every priority queue and every encoded
string, `Decode` returns the same result as on the string obtained by deleting every
character other than `'0'` and `'1'`. -/
theorem decode_ignores_non_bits (H : PriorityQueue) (text : CString) (h : TwoDistinct text)
    (encoded_text : CString) :
    Decode encoded_text (BuildHuffmanTree H text) =
      Decode (encoded_text.filter isBit) (BuildHuffmanTree H text) := by
  obtain ⟨l, r, _, _, hroot⟩ := BuildHuffmanTree_internal H text ((twoDistinct_iff text).1 h)
  rw [hroot]
  unfold Decode newInternal
  rw [DecodeLoop_filter_bits _ _ _ _ sentinel_not_leaf encoded_text _ _ _ _ [] sentinel_not_leaf]

/-- The witness of `decode_ignores_non_bits`: on the tree of `"aaab"` the string `"1a0"`
decodes like `"10"`, to `"ab"`. -/
theorem decode_ignores_non_bits_witness :
    TwoDistinct text_aaab ∧
      Decode [bit1, CChar.ofInt 97, bit0] (BuildHuffmanTree listQueue text_aaab) =
        Decode [bit1, bit0] (BuildHuffmanTree listQueue text_aaab) :=
  have h : TwoDistinct text_aaab :=
    ⟨CChar.ofInt 97, by decide, CChar.ofInt 98, by decide, by decide⟩
  ⟨h, decode_ignores_non_bits listQueue text_aaab h [bit1, CChar.ofInt 97, bit0]⟩

/-! ## The text with a single distinct character -/

/-- C11, the code at the failing inputs. For every text made of one character repeated
`k + 1` times and every priority queue, the merge loop is not entered and
`BuildHuffmanTree` returns the null pointer `root` was initialised with, not the leaf that
the heap holds and that `EXTRACT-MIN(Q)` of the pseudocode would return. -/
theorem single_character_returns_null (H : PriorityQueue) (c : CChar) (k : Nat) :
    BuildHuffmanTree H (List.replicate (k + 1) c) = .null ∧
      BuildHuffmanTree H (List.replicate (k + 1) c) ≠ newLeaf c (k + 1) := by
  have h : BuildHuffmanTree H (List.replicate (k + 1) c) = .null := by
    apply BuildHuffmanTree_null
    rw [characters_replicate (k + 1) c (by omega)]
    simp
  refine ⟨h, ?_⟩
  rw [h]
  simp [newLeaf]

/-! ## The leaves of the tree -/

/-- C12, as amended. Leaves of the tree: for every text with at least two distinct
characters in which no character occurs `2 ^ 32` times or more, and every priority queue,
the leaves (childless nodes) of the tree returned by `BuildHuffmanTree` are in one-to-one
correspondence with the distinct characters of the text: up to order, they are one leaf
per distinct character, holding the character and its occurrence count. -/
theorem leaves_one_per_character (H : PriorityQueue) (text : CString) (h : TwoDistinct text)
    (hcount : ∀ c, text.count c < UNSIGNED_MOD) :
    (leaves (BuildHuffmanTree H text)).Perm
      ((characters text).map (fun c => (c, text.count c))) := by
  have hperm := (BuildHuffmanTree_built H text ((twoDistinct_iff text).1 h)).2
  rw [initialLeaves_eq] at hperm
  have e : (characters text).map (fun c => (c, text.count c % UNSIGNED_MOD)) =
      (characters text).map (fun c => (c, text.count c)) := by
    apply List.map_congr_left
    intro c _
    rw [Nat.mod_eq_of_lt (hcount c)]
  rw [e] at hperm
  exact hperm

/-- The witness of `leaves_one_per_character`: the text `"aaab"`. -/
theorem leaves_one_per_character_witness :
    TwoDistinct text_aaab ∧ (∀ c, text_aaab.count c < UNSIGNED_MOD) ∧
      (leaves (BuildHuffmanTree listQueue text_aaab)).Perm
        ((characters text_aaab).map (fun c => (c, text_aaab.count c))) :=
  have h : TwoDistinct text_aaab :=
    ⟨CChar.ofInt 97, by decide, CChar.ofInt 98, by decide, by decide⟩
  have hc : ∀ c, text_aaab.count c < UNSIGNED_MOD := fun c =>
    lt_of_le_of_lt (List.count_le_length c text_aaab)
      (show text_aaab.length < UNSIGNED_MOD from by decide)
  ⟨h, hc, leaves_one_per_character listQueue text_aaab h hc⟩

/-- A character that occurs `2 ^ 32` times or more has no leaf holding its occurrence
count. -/
theorem leaves_not_counts_of_overflow (H : PriorityQueue) (text : CString)
    (h2 : 2 ≤ (characters text).length) (c : CChar) (hc : c ∈ text)
    (hM : UNSIGNED_MOD ≤ text.count c) :
    ¬ (leaves (BuildHuffmanTree H text)).Perm
      ((characters text).map (fun c => (c, text.count c))) := by
  intro hperm
  have h1 := (BuildHuffmanTree_built H text h2).2
  rw [initialLeaves_eq] at h1
  have hmem : (c, text.count c) ∈ (characters text).map (fun c => (c, text.count c)) :=
    List.mem_map.2 ⟨c, (mem_characters text c).2 hc, rfl⟩
  have hmem' := h1.mem_iff.1 (hperm.mem_iff.2 hmem)
  obtain ⟨d, _, hd⟩ := List.mem_map.1 hmem'
  have e1 : d = c := congrArg Prod.fst hd
  have e2 : text.count d % UNSIGNED_MOD = text.count c := congrArg Prod.snd hd
  rw [e1] at e2
  have := Nat.mod_lt (text.count c) UNSIGNED_MOD_pos
  omega

/-- C12, the counterexample. In the text of `2 ^ 32` copies of `'a'` followed by `"bc"`,
which has three distinct characters, with no priority queue are the leaves of the built
tree the distinct characters with their occurrence counts: the leaf `a` holds the wrapped
count `0`. -/
theorem leaves_not_counts_on_overflow :
    TwoDistinct text_skew ∧
      ¬ ∃ H : PriorityQueue,
        (leaves (BuildHuffmanTree H text_skew)).Perm
          ((characters text_skew).map (fun c => (c, text_skew.count c))) := by
  have h2 : 2 ≤ (characters text_skew).length := by rw [characters_text_skew]; decide
  refine ⟨(twoDistinct_iff _).2 h2, ?_⟩
  rintro ⟨H, hperm⟩
  have hcount := count_text_skew.1
  have hmem : CChar.ofInt 97 ∈ text_skew :=
    List.count_pos_iff.1 (by rw [hcount]; norm_num)
  exact leaves_not_counts_of_overflow H text_skew h2 _ hmem
    (by rw [hcount]; unfold UNSIGNED_MOD; exact le_rfl) hperm

/-! ## A code is the path to its leaf -/

theorem descend_bit0 (l r : HuffmanTreeNode) (rest : CString) :
    descend (newInternal l r) (bit0 :: rest) = descend l rest := by
  simp [descend, newInternal]

theorem descend_bit1 (l r : HuffmanTreeNode) (rest : CString) :
    descend (newInternal l r) (bit1 :: rest) = descend r rest := by
  simp [descend, newInternal, bit0_ne_bit1.symm]

/-- In a constructed tree reached with the code `q`, a code written below it is `q`
followed by the path to the leaf holding its character, and every proper prefix of that
path stops on an internal node. -/
theorem descend_code {t : HuffmanTreeNode} (h : Built t) :
    ∀ (q : CString) (c : CChar) (s : CString), (c, s) ∈ codes t q →
      ∃ s', s = q ++ s' ∧ (∃ f, descend t s' = some (newLeaf c f)) ∧
        ∀ p, p <+: s' → p ≠ s' →
          ∃ l r, Built l ∧ Built r ∧ descend t p = some (newInternal l r) := by
  induction h with
  | leaf c' f =>
    intro q c s hmem
    rw [codes_newLeaf] at hmem
    split at hmem
    · simp only [List.mem_singleton, Prod.mk.injEq] at hmem
      obtain ⟨rfl, rfl⟩ := hmem
      refine ⟨[], by simp, ⟨f, rfl⟩, ?_⟩
      intro p hp hne
      exact absurd (List.prefix_nil.1 hp) hne
    · simp at hmem
  | internal l r hl hr ihl ihr =>
    intro q c s hmem
    rw [codes_newInternal, List.mem_append] at hmem
    rcases hmem with hmem | hmem
    · obtain ⟨s', hs, hleaf, hpre⟩ := ihl _ c s hmem
      refine ⟨bit0 :: s', by simp [hs], ?_, ?_⟩
      · rw [descend_bit0]; exact hleaf
      · intro p hp hne
        cases p with
        | nil => exact ⟨l, r, hl, hr, rfl⟩
        | cons b p' =>
          obtain ⟨rfl, hp'⟩ := List.cons_prefix_cons.1 hp
          rw [descend_bit0]
          exact hpre p' hp' (fun e => hne (by rw [e]))
    · obtain ⟨s', hs, hleaf, hpre⟩ := ihr _ c s hmem
      refine ⟨bit1 :: s', by simp [hs], ?_, ?_⟩
      · rw [descend_bit1]; exact hleaf
      · intro p hp hne
        cases p with
        | nil => exact ⟨l, r, hl, hr, rfl⟩
        | cons b p' =>
          obtain ⟨rfl, hp'⟩ := List.cons_prefix_cons.1 hp
          rw [descend_bit1]
          exact hpre p' hp' (fun e => hne (by rw [e]))

/-- C13. A code is the root-to-leaf path: for every text with at least two distinct
characters, every priority queue and every entry `(c, code)` of the lookup table derived
from `BuildHuffmanTree(text)`, following `code` from the root (left on `'0'`, right on
`'1'`) ends exactly at a leaf holding `c`, every proper prefix of `code` stops on an
internal node, not on a leaf, and `Decode(code, root)` is the one-character string
`c`. -/
theorem code_is_path_to_leaf (H : PriorityQueue) (text : CString) (h : TwoDistinct text)
    (c : CChar) (code : CString)
    (hcode : CreateLookupTable (BuildHuffmanTree H text) (fun _ => none) [] c = some code) :
    (∃ f, descend (BuildHuffmanTree H text) code = some (newLeaf c f)) ∧
      (∀ p, p <+: code → p ≠ code →
        ∃ l r, Built l ∧ Built r ∧
          descend (BuildHuffmanTree H text) p = some (newInternal l r)) ∧
      Decode code (BuildHuffmanTree H text) = some [c] := by
  have h2 := (twoDistinct_iff text).1 h
  have hmem := mem_codes_of_lookup _ c code hcode
  obtain ⟨s', hs, hleaf, hpre⟩ := descend_code (BuildHuffmanTree_built H text h2).1 [] c code hmem
  rw [List.nil_append] at hs
  subst hs
  refine ⟨hleaf, hpre, ?_⟩
  obtain ⟨l, r, hl, hr, hroot⟩ := BuildHuffmanTree_internal H text h2
  rw [hroot] at hmem ⊢
  unfold Decode
  have := DecodeLoop_code hl hr c code hmem [] []
  rw [List.append_nil] at this
  rw [this]
  rfl

/-- The witness of `code_is_path_to_leaf`: the entry `(a, "00")` of the table of
`"abbcccc"`. -/
theorem code_is_path_to_leaf_witness :
    TwoDistinct text_abbcccc ∧
      CreateLookupTable (BuildHuffmanTree listQueue text_abbcccc) (fun _ => none) []
        (CChar.ofInt 97) = some [bit0, bit0] ∧
      Decode [bit0, bit0] (BuildHuffmanTree listQueue text_abbcccc) = some [CChar.ofInt 97] :=
  have h : TwoDistinct text_abbcccc :=
    ⟨CChar.ofInt 97, by decide, CChar.ofInt 98, by decide, by decide⟩
  have hcode : CreateLookupTable (BuildHuffmanTree listQueue text_abbcccc) (fun _ => none) []
      (CChar.ofInt 97) = some [bit0, bit0] := by
    rw [BuildHuffmanTree_abbcccc]; decide
  ⟨h, hcode, (code_is_path_to_leaf listQueue text_abbcccc h _ _ hcode).2.2⟩

/-! ## Decode is safe on built trees -/

theorem SafeCursor.left_or_emit {t l r : HuffmanTreeNode} (ht : SafeCursor t)
    (e : t = newInternal l r) :
    (∃ c f, l = newLeaf c f ∧ (-1 : Int) < c.val) ∨ SafeCursor l := by
  obtain ⟨l', r', e', hl, hr, hpass⟩ := ht
  rw [e] at e' hpass
  unfold newInternal at e'
  injection e' with _ _ e1 e2
  subst e1 e2
  rw [leaves_newInternal hl] at hpass
  cases hl with
  | leaf c f =>
    left
    exact ⟨c, f, rfl, hpass (c, f) (by simp [leaves_newLeaf])⟩
  | internal a b ha hb =>
    right
    exact ⟨a, b, rfl, ha, hb, fun x hx => hpass x (List.mem_append_left _ hx)⟩

theorem SafeCursor.right_or_emit {t l r : HuffmanTreeNode} (ht : SafeCursor t)
    (e : t = newInternal l r) :
    (∃ c f, r = newLeaf c f ∧ (-1 : Int) < c.val) ∨ SafeCursor r := by
  obtain ⟨l', r', e', hl, hr, hpass⟩ := ht
  rw [e] at e' hpass
  unfold newInternal at e'
  injection e' with _ _ e1 e2
  subst e1 e2
  rw [leaves_newInternal hl] at hpass
  cases hr with
  | leaf c f =>
    left
    exact ⟨c, f, rfl, hpass (c, f) (by simp [leaves_newLeaf])⟩
  | internal a b ha hb =>
    right
    exact ⟨a, b, rfl, ha, hb, fun x hx => hpass x (List.mem_append_right _ hx)⟩

/-- From a safe cursor, under a safe root, the loop of `Decode` runs over any string of
bits without dereferencing a null pointer and ends on a safe cursor. -/
theorem DecodeLoop_safe (root : HuffmanTreeNode) (hroot : SafeCursor root) :
    ∀ (bits : CString), (∀ b ∈ bits, b = bit0 ∨ b = bit1) →
      ∀ (cur : HuffmanTreeNode) (acc : CString), SafeCursor cur →
        ∃ cur' out, DecodeLoop root bits cur acc = some (cur', out) ∧ SafeCursor cur' := by
  intro bits
  induction bits with
  | nil => intro _ cur acc hcur; exact ⟨cur, acc, rfl, hcur⟩
  | cons b rest ih =>
    intro hbits cur acc hcur
    have hrest : ∀ b ∈ rest, b = bit0 ∨ b = bit1 :=
      fun x hx => hbits x (List.mem_cons_of_mem _ hx)
    obtain ⟨l, r, e, _, _, _⟩ := id hcur
    rw [DecodeLoop_cons]
    rcases hbits b (List.mem_cons_self _ _) with rfl | rfl
    · rw [e, moveCursor_bit0]
      simp only [Option.some_bind]
      rcases hcur.left_or_emit e with ⟨c, f, rfl, hpos⟩ | hl
      · simp only [arrive, newLeaf, if_pos hpos]
        exact ih hrest root _ hroot
      · obtain ⟨a, b', rfl, _, _, _⟩ := id hl
        rw [arrive_newInternal]
        exact ih hrest _ _ hl
    · rw [e, moveCursor_bit1]
      simp only [Option.some_bind]
      rcases hcur.right_or_emit e with ⟨c, f, rfl, hpos⟩ | hr
      · simp only [arrive, newLeaf, if_pos hpos]
        exact ih hrest root _ hroot
      · obtain ⟨a, b', rfl, _, _, _⟩ := id hr
        rw [arrive_newInternal]
        exact ih hrest _ _ hr

/-- The root of the tree of a text with two distinct characters or more, all
non-negative, is a safe cursor. -/
theorem SafeCursor_root (H : PriorityQueue) (text : CString)
    (h2 : 2 ≤ (characters text).length) (hnn : NonNegative text) :
    SafeCursor (BuildHuffmanTree H text) := by
  obtain ⟨l, r, hl, hr, hroot⟩ := BuildHuffmanTree_internal H text h2
  refine ⟨l, r, hroot, hl, hr, ?_⟩
  intro e he
  have hperm := leaves_BuildHuffmanTree H text h2
  have : e.1 ∈ characters text := hperm.mem_iff.1 (List.mem_map_of_mem _ he)
  exact hnn e.1 ((mem_characters text e.1).1 this)

/-- C17. Decode is safe on built trees: for every text with at least two distinct
characters, all of non-negative `char` value, every priority queue and every string made
only of `'0'` and `'1'`, `Decode` on the tree `BuildHuffmanTree(text)` never follows a
null child: after every prefix of the string, that is before each bit, the cursor is at an
internal node that has both children, so `Decode` returns a string. -/
theorem decode_safe_on_built_tree (H : PriorityQueue) (text : CString) (h : TwoDistinct text)
    (hnn : NonNegative text) (bits : CString) (hbits : ∀ b ∈ bits, b = bit0 ∨ b = bit1) :
    (∀ pre, pre <+: bits →
      ∃ l r out, l ≠ .null ∧ r ≠ .null ∧
        DecodeLoop (BuildHuffmanTree H text) pre (BuildHuffmanTree H text) [] =
          some (newInternal l r, out)) ∧
      ∃ out, Decode bits (BuildHuffmanTree H text) = some out := by
  have hroot := SafeCursor_root H text ((twoDistinct_iff text).1 h) hnn
  refine ⟨?_, ?_⟩
  · intro pre hpre
    obtain ⟨cur, out, hdec, l, r, rfl, hl, hr, _⟩ :=
      DecodeLoop_safe _ hroot pre (fun b hb => hbits b (hpre.subset hb)) _ [] hroot
    exact ⟨l, r, out, hl.ne_null, hr.ne_null, hdec⟩
  · obtain ⟨cur, out, hdec, _⟩ := DecodeLoop_safe _ hroot bits hbits _ [] hroot
    exact ⟨out, by unfold Decode; rw [hdec]; rfl⟩

/-- The witness of `decode_safe_on_built_tree`: the string `"0"`, no valid encoding, on
the tree of `"abbcccc"`. -/
theorem decode_safe_on_built_tree_witness :
    TwoDistinct text_abbcccc ∧ NonNegative text_abbcccc ∧
      (∀ b ∈ [bit0], b = bit0 ∨ b = bit1) ∧
      ∃ out, Decode [bit0] (BuildHuffmanTree listQueue text_abbcccc) = some out :=
  have h : TwoDistinct text_abbcccc :=
    ⟨CChar.ofInt 97, by decide, CChar.ofInt 98, by decide, by decide⟩
  have hb : ∀ b ∈ [bit0], b = bit0 ∨ b = bit1 := by decide
  ⟨h, by decide, hb,
    (decode_safe_on_built_tree listQueue text_abbcccc h (by decide) [bit0] hb).2⟩

/-! ## The merge order -/

theorem LeftLightest_newLeaf (c : CChar) (f : Nat) : LeftLightest (newLeaf c f) := by
  intro c' f' l r hmem hchild
  simp [newLeaf, subtrees] at hmem
  obtain ⟨_, _, rfl, rfl⟩ := hmem
  simp at hchild

theorem LeftLightest_newInternal {x y : HuffmanTreeNode} (hx : LeftLightest x)
    (hy : LeftLightest y) (hxy : x.frequency ≤ y.frequency) :
    LeftLightest (newInternal x y) := by
  intro c f l r hmem hchild
  rw [subtrees_newInternal] at hmem
  rcases List.mem_cons.1 hmem with heq | hmem
  · unfold newInternal at heq
    injection heq with _ _ h3 h4
    subst h3 h4
    exact hxy
  · rcases List.mem_append.1 hmem with hmem | hmem
    · exact hx c f l r hmem hchild
    · exact hy c f l r hmem hchild

/-- The second extraction of an iteration is no lighter than the first. -/
theorem Extracted.frequency_le {F : Multiset HuffmanTreeNode} {x y : HuffmanTreeNode}
    (h : Extracted F x y) : x.frequency ≤ y.frequency :=
  h.min_left y (Multiset.mem_of_mem_erase h.mem_right)

/-- In every internal node of the tree `BuildHuffmanTree` returns the left child is no
heavier than the right child. -/
theorem LeftLightest_BuildHuffmanTree (H : PriorityQueue) (text : CString) :
    LeftLightest (BuildHuffmanTree H text) := by
  by_cases h2 : 2 ≤ (characters text).length
  · obtain ⟨n, hn⟩ : ∃ n, (characters text).length = n + 1 :=
      ⟨(characters text).length - 1, by omega⟩
    have := mergeLoop_invariant H (fun F => ∀ t ∈ F, LeftLightest t)
      (fun F x y hex hF t ht => by
        unfold mergeStep at ht
        rcases Multiset.mem_cons.1 ht with rfl | ht
        · exact LeftLightest_newInternal (hF x hex.mem_left)
            (hF y (Multiset.mem_of_mem_erase hex.mem_right)) hex.frequency_le
        · exact hF t (Multiset.mem_of_mem_erase (Multiset.mem_of_mem_erase ht)))
      n (pushLeaves H (CreateFrequencyTable text (fun _ => none)) (characters text)) .null
      (by rw [card_pushLeaves, hn])
      (by
        intro t ht
        rw [elems_pushLeaves] at ht
        simp only [Multiset.mem_coe, List.mem_map] at ht
        obtain ⟨c, _, rfl⟩ := ht
        exact LeftLightest_newLeaf _ _)
      (fun h0 => absurd h0 (by omega))
    exact this _ (Multiset.mem_singleton_self _)
  · rw [BuildHuffmanTree_null H text (by omega)]
    intro c f l r hmem
    simp [subtrees] at hmem

/-! ## Termination and merge count -/

theorem mergeIterations_done (H : PriorityQueue) (q : H.Q) (h : H.size q ≤ 1) :
    mergeIterations H q = 0 := by
  rw [mergeIterations]
  simp [Nat.not_lt.2 h]

theorem mergeIterations_step (H : PriorityQueue) (q : H.Q) (h : 1 < H.size q) :
    mergeIterations H q =
      mergeIterations H (H.push (H.pop (H.pop q)) (newInternal (H.top q) (H.top (H.pop q))))
        + 1 := by
  rw [mergeIterations]
  simp [h]

/-- From a heap of `n + 1` trees the loop runs exactly `n` times. -/
theorem mergeIterations_eq (H : PriorityQueue) :
    ∀ (n : Nat) (q : H.Q), Multiset.card (H.elems q) = n + 1 → mergeIterations H q = n := by
  intro n
  induction n with
  | zero =>
    intro q hcard
    exact mergeIterations_done H q (by rw [H.size_eq, hcard])
  | succ n ih =>
    intro q hcard
    have hsize : 1 < H.size q := by rw [H.size_eq, hcard]; omega
    obtain ⟨_, helems, hc⟩ := extracted_of_size H q hsize
    rw [mergeIterations_step H q hsize, ih _ (by rw [helems]; omega)]

theorem internalCount_newLeaf (c : CChar) (f : Nat) : internalCount (newLeaf c f) = 0 := rfl

theorem internalCount_newInternal {l r : HuffmanTreeNode} (hl : Built l) :
    internalCount (newInternal l r) = internalCount l + internalCount r + 1 := by
  have hc : hasChild (newInternal l r) = true := by
    unfold newInternal
    cases l with
    | null => exact absurd rfl hl.ne_null
    | node _ _ _ _ => rfl
  unfold internalCount
  rw [subtrees_newInternal, List.filter_cons_of_pos hc, List.filter_append]
  simp only [List.length_cons, List.length_append]

/-- A constructed tree has one leaf more than it has internal nodes. -/
theorem Built.internalCount_succ {t : HuffmanTreeNode} (h : Built t) :
    internalCount t + 1 = (leaves t).length := by
  induction h with
  | leaf c f => rfl
  | internal l r hl _ ihl ihr =>
    rw [internalCount_newInternal hl, leaves_newInternal hl, List.length_append]
    omega

/-- C15. Termination and merge count: for every text with `n >= 1` distinct characters
and every priority queue, the merge loop of `BuildHuffmanTree` (a total function: it
terminates) runs exactly `n - 1` iterations, each iteration shrinks the priority queue by
one, and for `n >= 2` the returned tree has exactly `n - 1` internal nodes and `n`
leaves. -/
theorem merge_count (H : PriorityQueue) (text : CString)
    (hn : 1 ≤ (characters text).length) :
    mergeIterations H
        (pushLeaves H (CreateFrequencyTable text (fun _ => none)) (characters text)) + 1 =
        (characters text).length ∧
      (∀ q : H.Q, 1 < H.size q →
        H.size (H.push (H.pop (H.pop q)) (newInternal (H.top q) (H.top (H.pop q)))) + 1 =
          H.size q) ∧
      (2 ≤ (characters text).length →
        internalCount (BuildHuffmanTree H text) + 1 = (characters text).length ∧
          (leaves (BuildHuffmanTree H text)).length = (characters text).length) := by
  refine ⟨?_, ?_, ?_⟩
  · obtain ⟨n, hn'⟩ : ∃ n, (characters text).length = n + 1 :=
      ⟨(characters text).length - 1, by omega⟩
    rw [mergeIterations_eq H n _ (by rw [card_pushLeaves, hn']), hn']
  · intro q hq
    obtain ⟨_, helems, hc⟩ := extracted_of_size H q hq
    rw [H.size_eq, H.size_eq, helems]
    exact hc
  · intro h2
    obtain ⟨hb, hperm⟩ := BuildHuffmanTree_built H text h2
    have hlen : (leaves (BuildHuffmanTree H text)).length = (characters text).length := by
      rw [hperm.length_eq]
      unfold initialLeaves
      rw [List.length_map]
    exact ⟨by rw [hb.internalCount_succ, hlen], hlen⟩

/-- The witness of `merge_count`: the text `"abbcccc"`, with three distinct characters. -/
theorem merge_count_witness :
    1 ≤ (characters text_abbcccc).length ∧
      mergeIterations listQueue
        (pushLeaves listQueue (CreateFrequencyTable text_abbcccc (fun _ => none))
          (characters text_abbcccc)) + 1 = 3 :=
  ⟨by decide, (merge_count listQueue text_abbcccc (by decide)).1⟩

/-! ## The internal nodes are the merges -/

theorem mergeHeaps_done (H : PriorityQueue) (q : H.Q) (h : H.size q ≤ 1) :
    mergeHeaps H q = [] := by
  rw [mergeHeaps]
  simp [Nat.not_lt.2 h]

theorem mergeHeaps_step (H : PriorityQueue) (q : H.Q) (h : 1 < H.size q) :
    mergeHeaps H q =
      q :: mergeHeaps H (H.push (H.pop (H.pop q)) (newInternal (H.top q) (H.top (H.pop q)))) := by
  rw [mergeHeaps]
  simp [h]

/-- Every recorded heap holds two trees or more: an iteration starts from it. -/
theorem size_of_mem_mergeHeaps (H : PriorityQueue) :
    ∀ (n : Nat) (q : H.Q), Multiset.card (H.elems q) = n + 1 →
      ∀ q' ∈ mergeHeaps H q, 1 < H.size q' := by
  intro n
  induction n with
  | zero =>
    intro q hcard q' hq'
    rw [mergeHeaps_done H q (by rw [H.size_eq, hcard])] at hq'
    simp at hq'
  | succ n ih =>
    intro q hcard q' hq'
    have hsize : 1 < H.size q := by rw [H.size_eq, hcard]; omega
    obtain ⟨_, helems, hc⟩ := extracted_of_size H q hsize
    rw [mergeHeaps_step H q hsize] at hq'
    rcases List.mem_cons.1 hq' with rfl | hq'
    · exact hsize
    · exact ih _ (by rw [helems]; omega) q' hq'

theorem internalNodes_newLeaf (c : CChar) (f : Nat) : internalNodes (newLeaf c f) = [] := rfl

theorem internalNodes_newInternal {l r : HuffmanTreeNode} (hl : Built l) :
    internalNodes (newInternal l r) =
      newInternal l r :: (internalNodes l ++ internalNodes r) := by
  have hc : hasChild (newInternal l r) = true := by
    unfold newInternal
    cases l with
    | null => exact absurd rfl hl.ne_null
    | node _ _ _ _ => rfl
  unfold internalNodes
  rw [subtrees_newInternal, List.filter_cons_of_pos hc, List.filter_append]

theorem forestInternals_mergeStep (F : Multiset HuffmanTreeNode) (x y : HuffmanTreeNode)
    (h : Extracted F x y) (hx : Built x) :
    forestInternals (mergeStep F x y) = newInternal x y ::ₘ forestInternals F := by
  obtain ⟨R, hR, hstep⟩ := h.decompose
  rw [hstep, hR]
  unfold forestInternals
  simp only [Multiset.map_cons, Multiset.sum_cons, internalNodes_newInternal hx]
  rw [← Multiset.cons_coe, ← Multiset.coe_add, Multiset.cons_add, add_assoc]

/-- The internal nodes of the root the merge loop returns are the internal nodes already
in the heap and, for every iteration, the node made of its two extractions. -/
theorem forestInternals_mergeLoop (H : PriorityQueue) :
    ∀ (n : Nat) (q : H.Q) (root : HuffmanTreeNode),
      Multiset.card (H.elems q) = n + 1 → (∀ t ∈ H.elems q, Built t) →
      (n = 0 → H.elems q = {root}) →
      (internalNodes (mergeLoop H q root) : Multiset HuffmanTreeNode) =
        forestInternals (H.elems q) +
          (((mergeHeaps H q).map (mergedNode H) : List HuffmanTreeNode) :
            Multiset HuffmanTreeNode) := by
  intro n
  induction n with
  | zero =>
    intro q root hcard _ hroot
    have hsize : H.size q ≤ 1 := by rw [H.size_eq, hcard]
    rw [mergeLoop_done H q root hsize, mergeHeaps_done H q hsize, hroot rfl]
    simp [forestInternals]
  | succ n ih =>
    intro q root hcard hbuilt _
    have hsize : 1 < H.size q := by rw [H.size_eq, hcard]; omega
    obtain ⟨hex, helems, hc⟩ := extracted_of_size H q hsize
    have hx := hbuilt _ hex.mem_left
    have hy := hbuilt _ (Multiset.mem_of_mem_erase hex.mem_right)
    rw [mergeLoop_step H q root hsize, mergeHeaps_step H q hsize]
    rw [ih _ _ (by rw [helems]; omega)
      (by
        intro t ht
        rw [helems] at ht
        unfold mergeStep at ht
        rcases Multiset.mem_cons.1 ht with rfl | ht
        · exact Built.internal _ _ hx hy
        · exact hbuilt t (Multiset.mem_of_mem_erase (Multiset.mem_of_mem_erase ht)))
      (by
        intro hn
        obtain ⟨R, hR, hstep⟩ := hex.decompose
        rw [helems, hstep]
        have : Multiset.card R = 0 := by
          rw [hstep] at hc
          simp only [Multiset.card_cons] at hc
          omega
        rw [Multiset.card_eq_zero.1 this]
        rfl)]
    rw [helems, forestInternals_mergeStep _ _ _ hex hx, List.map_cons, ← Multiset.cons_coe]
    unfold mergedNode
    rw [Multiset.cons_add, Multiset.add_cons]

/-- The internal nodes of the tree `BuildHuffmanTree` returns are, up to order, the nodes
the iterations of the merge loop create, one per iteration. -/
theorem internalNodes_BuildHuffmanTree (H : PriorityQueue) (text : CString) :
    (internalNodes (BuildHuffmanTree H text)).Perm
      ((mergeHeaps H
        (pushLeaves H (CreateFrequencyTable text (fun _ => none)) (characters text))).map
        (mergedNode H)) := by
  by_cases h2 : 2 ≤ (characters text).length
  · obtain ⟨n, hn⟩ : ∃ n, (characters text).length = n + 1 :=
      ⟨(characters text).length - 1, by omega⟩
    have hinit := HeapInv_initial H text
    have := forestInternals_mergeLoop H n
      (pushLeaves H (CreateFrequencyTable text (fun _ => none)) (characters text)) .null
      (by rw [card_pushLeaves, hn]) hinit.1 (fun h0 => absurd h0 (by omega))
    have hzero : forestInternals (H.elems
        (pushLeaves H (CreateFrequencyTable text (fun _ => none)) (characters text))) = 0 := by
      rw [elems_pushLeaves]
      unfold forestInternals
      rw [Multiset.map_coe, Multiset.sum_coe, List.map_map]
      generalize characters text = cs
      induction cs with
      | nil => rfl
      | cons c rest ih =>
        rw [List.map_cons, List.sum_cons, ih]
        rfl
    rw [hzero, zero_add] at this
    exact Multiset.coe_eq_coe.1 this
  · have hsize : H.size
        (pushLeaves H (CreateFrequencyTable text (fun _ => none)) (characters text)) ≤ 1 := by
      rw [H.size_eq, card_pushLeaves]; omega
    rw [BuildHuffmanTree_null H text (by omega), mergeHeaps_done H _ hsize]
    exact List.Perm.refl _

theorem hasChild_node (c : CChar) (f : Nat) (l r : HuffmanTreeNode)
    (h : l ≠ .null ∨ r ≠ .null) : hasChild (.node c f l r) = true := by
  cases l with
  | null =>
    cases r with
    | null => simp at h
    | node _ _ _ _ => rfl
  | node _ _ _ _ => rfl

/-- Every heap recorded for a text holds two trees or more, so that its two extractions
are the two extractions of an iteration. -/
theorem extracted_of_mem_mergeHeaps (H : PriorityQueue) (text : CString) (q : H.Q)
    (hq : q ∈ mergeHeaps H
      (pushLeaves H (CreateFrequencyTable text (fun _ => none)) (characters text))) :
    Extracted (H.elems q) (H.top q) (H.top (H.pop q)) := by
  have hsize : 1 < H.size q := by
    by_cases h1 : 1 ≤ (characters text).length
    · exact size_of_mem_mergeHeaps H ((characters text).length - 1) _
        (by rw [card_pushLeaves]; omega) q hq
    · rw [mergeHeaps_done H _ (by rw [H.size_eq, card_pushLeaves]; omega)] at hq
      simp at hq
  exact (extracted_of_size H q hsize).1

/-- C14. Merge order: for every text and every priority queue, every internal node of the
tree returned by `BuildHuffmanTree` was created by an iteration of the merge loop, from
the heap `q` that iteration started with: its left child is `H.top q`, the first-extracted
node, a node of least frequency of the heap, and its right child is `H.top (H.pop q)`, the
second-extracted node, a node of least frequency of what was left. The internal nodes are,
up to order, exactly these nodes, one per iteration. So the first extraction of an
iteration is no heavier than the second, and in every internal node the left child's
frequency is less than or equal to the right child's frequency. -/
theorem merge_order (H : PriorityQueue) (text : CString) :
    (∀ c f left right,
        HuffmanTreeNode.node c f left right ∈ subtrees (BuildHuffmanTree H text) →
        (left ≠ .null ∨ right ≠ .null) →
        ∃ q ∈ mergeHeaps H
            (pushLeaves H (CreateFrequencyTable text (fun _ => none)) (characters text)),
          left = H.top q ∧ right = H.top (H.pop q) ∧ Extracted (H.elems q) left right) ∧
      (internalNodes (BuildHuffmanTree H text)).Perm
        ((mergeHeaps H
          (pushLeaves H (CreateFrequencyTable text (fun _ => none)) (characters text))).map
          (fun q => newInternal (H.top q) (H.top (H.pop q)))) ∧
      (∀ q : H.Q, 1 < H.size q → (H.top q).frequency ≤ (H.top (H.pop q)).frequency) ∧
      LeftLightest (BuildHuffmanTree H text) := by
  have hperm := internalNodes_BuildHuffmanTree H text
  refine ⟨?_, hperm, fun q hq => (extracted_of_size H q hq).1.frequency_le,
    LeftLightest_BuildHuffmanTree H text⟩
  intro c f left right hmem hchild
  have hint : HuffmanTreeNode.node c f left right ∈ internalNodes (BuildHuffmanTree H text) := by
    unfold internalNodes
    rw [List.mem_filter]
    exact ⟨hmem, hasChild_node c f left right hchild⟩
  obtain ⟨q, hq, hnode⟩ := List.mem_map.1 (hperm.mem_iff.1 hint)
  unfold mergedNode newInternal at hnode
  injection hnode with _ _ h3 h4
  subst h3 h4
  exact ⟨q, hq, rfl, rfl, extracted_of_mem_mergeHeaps H text q hq⟩

/-- On the text `"ab"`, whose two leaves tie, the root of the tree has the first-extracted
leaf on its left and the second-extracted on its right, whichever leaf the priority queue
extracts first. -/
theorem first_extracted_on_left_on_tie (H : PriorityQueue) :
    BuildHuffmanTree H text_ab =
      newInternal
        (H.top (pushLeaves H (CreateFrequencyTable text_ab (fun _ => none)) (characters text_ab)))
        (H.top (H.pop
          (pushLeaves H (CreateFrequencyTable text_ab (fun _ => none)) (characters text_ab)))) := by
  unfold BuildHuffmanTree
  have hcard := card_pushLeaves H text_ab
  have hlen : (characters text_ab).length = 2 := by decide
  rw [hlen] at hcard
  have hsize : 1 < H.size
      (pushLeaves H (CreateFrequencyTable text_ab (fun _ => none)) (characters text_ab)) := by
    rw [H.size_eq, hcard]; omega
  obtain ⟨_, helems, hc⟩ := extracted_of_size H _ hsize
  rw [mergeLoop_step H _ _ hsize]
  apply mergeLoop_done
  rw [H.size_eq, helems]
  omega

end HuffmanCoding
